import Mathlib

/-!
Verification of yara-x core claims

This file contains a shallow embedding, in Lean 4, of several parts of the
yara-x scanning engine, together with theorems that settle a list of claims
about its behavior. The embedded code covers:

* the `uleb128`/`sleb128` variable-width integer parsers of the Mach-O module
  (`src/lib/src/modules/macho/parser.rs`);
* the Mach-O FAT-binary dispatcher `MachO::parse` / `parse_fat_macho_file`
  and the header part of `parse_macho_file`;
* the RVA-to-file-offset helper `MachOFile::rva_to_offset`;
* the export-trie traversal `MachOFile::parse_exports`;
* the Pike VM `PikeVM::try_match` (`src/yara-x/src/re/pikevm.rs`);
* the WASM condition-module builder (`src/lib/src/wasm/builder.rs`): per-rule
  epilogue, rules-function chunking, namespace blocks, and the
  `check_for_pattern_match` helper, with an evaluation semantics for the
  emitted module;
* the C-API compiler object (`src/capi/src/compiler.rs`): creation flags and
  `yrx_compiler_build`.

Machine integers are modelled as `Nat` (with explicit reductions modulo
`2 ^ w` where overflow matters) and `Int` for signed results.  Fallible
parsers return `Except`.
-/

/-! ## Byte-level primitives

Bytes are modelled as `Nat`s in `[0, 256)`.  `&&&`, `|||`, `<<<`, `>>>` are
`Nat` bitwise operations, which agree with the corresponding `u8`/`u32`/`u64`
operations on in-range values.
-/

/-- Errors produced by the embedded nom-style parsers.  `eof` corresponds to
nom's `ErrorKind::Eof` (input exhausted), `tooLarge` to `ErrorKind::TooLarge`
(the error attached to a failed `checked_shl`), and `fail` to any other
parse error (failed `tag`/`verify`/...). -/
inductive PErr where
  | eof
  | tooLarge
  | fail
deriving DecidableEq, Repr

/-! ## ULEB128 and SLEB128 (`src/lib/src/modules/macho/parser.rs:1842-1908`) -/

/-- Loop body of `uleb128`.  Each iteration reads one byte (`u8(data)?`,
failing with `Eof` on empty input), masks the continuation bit, performs
`val |= b.checked_shl(shift)` — `checked_shl` on `u64` returns `None`
exactly when `shift ≥ 64`, and otherwise discards the bits shifted out of
the 64-bit range — and stops when the continuation bit is clear. -/
def uleb128Loop : List Nat → Nat → Nat → Except PErr (List Nat × Nat)
  | [], _, _ => .error .eof
  | byte :: rest, val, shift =>
    let b := byte &&& 0x7f
    if 64 ≤ shift then .error .tooLarge
    else
      let val := val ||| ((b <<< shift) % 2 ^ 64)
      if byte &&& 0x80 == 0 then .ok (rest, val)
      else uleb128Loop rest val (shift + 7)

/-- `uleb128`: reads a ULEB128-encoded `u64`, returning the unconsumed
remainder of the input together with the value. -/
def uleb128 (input : List Nat) : Except PErr (List Nat × Nat) :=
  uleb128Loop input 0 0

/-- Loop body of `sleb128`.  Like `uleb128Loop` but the shift is incremented
*before* the termination test, and the final byte and shift are returned so
that the caller can sign-extend. -/
def sleb128Loop : List Nat → Nat → Nat → Except PErr (List Nat × Nat × Nat × Nat)
  | [], _, _ => .error .eof
  | byte :: rest, val, shift =>
    let b := byte &&& 0x7f
    if 64 ≤ shift then .error .tooLarge
    else
      let val := val ||| ((b <<< shift) % 2 ^ 64)
      let shift := shift + 7
      if byte &&& 0x80 == 0 then .ok (rest, val, shift, byte)
      else sleb128Loop rest val shift

/-- Interprets a 64-bit pattern (a `Nat` below `2 ^ 64`) as an `i64`. -/
def toI64 (v : Nat) : Int :=
  if v < 2 ^ 63 then (v : Int) else (v : Int) - 2 ^ 64

/-- `sleb128`: reads an SLEB128-encoded `i64`.  After the loop, the value is
sign-extended (`val |= !0 << shift`, i.e. bits `shift..63` are set) exactly
when `shift < i64::BITS` and the sign bit (`0x40`) of the last byte is
set. -/
def sleb128 (input : List Nat) : Except PErr (List Nat × Int) := do
  let (rest, val, shift, byte) ← sleb128Loop input 0 0
  let val :=
    if shift < 64 ∧ byte &&& 0x40 ≠ 0 then val ||| (2 ^ 64 - 2 ^ shift)
    else val
  return (rest, toI64 val)

/-- The claim's failure condition for `uleb128`: some byte of the input would
be processed with a shift of 64 bits or more, i.e. there is a byte at an
index `j` with `7 * j ≥ 64` and all bytes before it have the continuation
bit set (so the loop actually reaches it). -/
def ulebNeedsShift64 (input : List Nat) : Prop :=
  ∃ j, j < input.length ∧ 64 ≤ 7 * j ∧
    ∀ i, i < j → input[i]! &&& 0x80 ≠ 0

/-- Unsigned value of a little-endian sequence of 7-bit payload groups. -/
def payloadU : List Nat → Nat
  | [] => 0
  | b :: rest => (b &&& 0x7f) + 128 * payloadU rest

/-- Signed value denoted by an SLEB128 encoding (the list of consumed bytes,
the last of which is the terminator).  Follows the spec's words: little-endian
7-bit payload groups; the value is sign-extended exactly when the final
byte's continuation bit is clear and its sign bit (`0x40`) is set. -/
def slebValue : List Nat → Int
  | [] => 0
  | b :: rest =>
    if b &&& 0x80 = 0 then
      ((b &&& 0x7f : Nat) : Int) - (if b &&& 0x40 ≠ 0 then 128 else 0)
    else ((b &&& 0x7f : Nat) : Int) + 128 * slebValue rest

/-! ## RVA to file offset (`src/lib/src/modules/macho/parser.rs:502-513`) -/

/-- A Mach-O segment, reduced to the fields used by `rva_to_offset`
(`vmaddr`, `vmsize`, `fileoff`, all `u64`). -/
structure Segment where
  vmaddr : Nat
  vmsize : Nat
  fileoff : Nat
deriving DecidableEq, Repr

instance : Inhabited Segment := ⟨⟨0, 0, 0⟩⟩

/-- `u64::checked_add`: `None` on overflow past `2 ^ 64 - 1`. -/
def checked_add (a b : Nat) : Option Nat :=
  if a + b < 2 ^ 64 then some (a + b) else none

/-- `u64::checked_sub`: `None` when the subtrahend is larger. -/
def checked_sub (a b : Nat) : Option Nat :=
  if b ≤ a then some (a - b) else none

/-- `MachOFile::rva_to_offset`: walks the segments in order; for each,
computes `end = vmaddr.checked_add(vmsize)?` (`None` is propagated out of
the whole function by `?`), and if `vmaddr ≤ rva < end` returns
`fileoff.checked_add(rva.checked_sub(vmaddr)?)`. -/
def rva_to_offset : List Segment → Nat → Option Nat
  | [], _ => none
  | seg :: rest, rva =>
    match checked_add seg.vmaddr seg.vmsize with
    | none => none
    | some end_ =>
      if seg.vmaddr ≤ rva ∧ rva < end_ then
        match checked_sub rva seg.vmaddr with
        | none => none
        | some d => checked_add seg.fileoff d
      else rva_to_offset rest rva

/-! ## `check_for_pattern_match` (`src/lib/src/wasm/builder.rs:436-496`) -/

/-- The body of the WASM function emitted by
`WasmModuleBuilder::gen_check_for_pattern_match`, evaluated over a byte
memory `mem` with the import global `matching_patterns_bitmap_base = base`.
The instruction sequence is: `local.get pattern_id; i32.const 3; i32.shr_u;
global.get base; i32.add; i32.load8_u; i32.const 1; local.get pattern_id;
i32.const 8; i32.rem_u; local.tee tmp; i32.shl; i32.and; local.get tmp;
i32.shr_u`.  i32 arithmetic wraps modulo `2 ^ 32`; the 8-bit load
zero-extends, so only the low byte of the memory cell is used. -/
def check_for_pattern_match (mem : Nat → Nat) (base pattern_id : Nat) : Nat :=
  let byteOffset := pattern_id >>> 3
  let addr := (byteOffset + base) % 2 ^ 32
  let byte := mem addr % 256
  let tmp := pattern_id % 8
  let mask := (1 <<< tmp) % 2 ^ 32
  (byte &&& mask) >>> tmp

/-! ## Mach-O FAT parsing (`src/lib/src/modules/macho/parser.rs:147-470`) -/

/-- Endianness selector (`nom::number::Endianness`). -/
inductive Endianness where
  | big
  | little
deriving DecidableEq, Repr

/-- Mach-O magic constants. -/
def MH_MAGIC : Nat := 0xfeedface

def MH_CIGAM : Nat := 0xcefaedfe

def MH_MAGIC_64 : Nat := 0xfeedfacf

def MH_CIGAM_64 : Nat := 0xcffaedfe

def FAT_MAGIC : Nat := 0xcafebabe

def FAT_CIGAM : Nat := 0xbebafeca

def FAT_MAGIC_64 : Nat := 0xcafebabf

def FAT_CIGAM_64 : Nat := 0xbfbafeca

/-- `nom`'s `be_u32`: big-endian 32-bit read. -/
def be_u32 : List Nat → Except PErr (List Nat × Nat)
  | b0 :: b1 :: b2 :: b3 :: rest =>
    .ok (rest, ((b0 * 256 + b1) * 256 + b2) * 256 + b3)
  | _ => .error .eof

/-- `nom`'s `le_u32`: little-endian 32-bit read. -/
def le_u32 : List Nat → Except PErr (List Nat × Nat)
  | b0 :: b1 :: b2 :: b3 :: rest =>
    .ok (rest, ((b3 * 256 + b2) * 256 + b1) * 256 + b0)
  | _ => .error .eof

/-- `nom`'s `u32(endianness)`. -/
def u32p (e : Endianness) (input : List Nat) : Except PErr (List Nat × Nat) :=
  match e with
  | .big => be_u32 input
  | .little => le_u32 input

/-- `nom`'s `u64(endianness)`: 64-bit read. -/
def u64p (e : Endianness) (input : List Nat) : Except PErr (List Nat × Nat) := do
  let (r, hi) ← u32p e input
  let (r', lo) ← u32p e r
  match e with
  | .big => pure (r', hi * 2 ^ 32 + lo)
  | .little => pure (r', lo * 2 ^ 32 + hi)

/-- The `uint(endianness, _32bits)` helper of the Mach-O parser: reads a
`u32` widened to `u64` in 32-bit mode, a `u64` otherwise. -/
def uintp (e : Endianness) (is32 : Bool) (input : List Nat) :
    Except PErr (List Nat × Nat) :=
  if is32 then u32p e input else u64p e input

/-- `nom`'s `count`: applies a parser a fixed number of times.  Together
with a preceding length read this models `length_count`. -/
def countP {α : Type} (p : List Nat → Except PErr (List Nat × α)) :
    Nat → List Nat → Except PErr (List Nat × List α)
  | 0, input => .ok (input, [])
  | n + 1, input => do
    let (r, a) ← p input
    let (r', rest) ← countP p n r
    pure (r', a :: rest)

/-- A `fat_arch`/`fat_arch64` entry of a FAT Mach-O header. -/
structure FatArch where
  cputype : Nat
  cpusubtype : Nat
  offset : Nat
  size : Nat
  align : Nat
  reserved : Nat
deriving DecidableEq, Repr

/-- Parser for one `fat_arch` (32-bit: five `u32`s) or `fat_arch64`
(64-bit: `u32 u32 u64 u64 u32 u32`) structure; the `reserved` field is only
present in 64-bit mode (`cond(!is_32bits, u32)`), defaulting to 0. -/
def fatArchP (e : Endianness) (is32 : Bool) (input : List Nat) :
    Except PErr (List Nat × FatArch) := do
  let (r, cputype) ← u32p e input
  let (r, cpusubtype) ← u32p e r
  let (r, offset) ← uintp e is32 r
  let (r, size) ← uintp e is32 r
  let (r, align) ← u32p e r
  if is32 then
    pure (r, ⟨cputype, cpusubtype, offset, size, align, 0⟩)
  else do
    let (r, reserved) ← u32p e r
    pure (r, ⟨cputype, cpusubtype, offset, size, align, reserved⟩)

/-- The header of a single-architecture Mach-O file. -/
structure MachOHeader where
  magic : Nat
  cputype : Nat
  cpusubtype : Nat
  filetype : Nat
  ncmds : Nat
  sizeofcmds : Nat
  flags : Nat
  reserved : Option Nat
deriving DecidableEq, Repr

/-- Result of `MachO::parse`. -/
structure MachO where
  fat_magic : Option Nat
  archs : List FatArch
  files : List MachOHeader
deriving DecidableEq, Repr

/-- Endianness implied by a Mach-O magic number (`parser.rs:263-267`). -/
def machoEndianness (magic : Nat) : Endianness :=
  if magic = MH_MAGIC ∨ magic = MH_MAGIC_64 then Endianness.big
  else Endianness.little

/-- Bitness implied by a Mach-O magic number (`parser.rs:269-273`). -/
def machoIs32 (magic : Nat) : Bool :=
  magic = MH_MAGIC ∨ magic = MH_CIGAM

/-- `MachO::parse_macho_file`, down to the header.  The function first
verifies the big-endian magic (`verify(be_u32, ...)`), derives endianness
and bitness from it, then parses the fixed header fields (`reserved` only
in 64-bit mode).  The remaining body of the Rust function — the `ncmds`
command loop and the symtab / code-signature / export / import /
chained-fixups post-passes (`parser.rs:336-469`) — catches every inner
parse error (the command loop merely breaks early on `Eof`) and therefore
never returns `Err`; it only fills fields not consulted by the claims, so
the embedding stops at the header. -/
def parse_macho_file (data : List Nat) : Except PErr MachOHeader := do
  let (r, magic) ← be_u32 data
  if ¬ (magic = MH_MAGIC ∨ magic = MH_CIGAM ∨ magic = MH_MAGIC_64 ∨
        magic = MH_CIGAM_64) then
    .error .fail
  else
    let e := machoEndianness magic
    let is32 := machoIs32 magic
    let (r, cputype) ← u32p e r
    let (r, cpusubtype) ← u32p e r
    let (r, filetype) ← u32p e r
    let (r, ncmds) ← u32p e r
    let (r, sizeofcmds) ← u32p e r
    let (r, flags) ← u32p e r
    if is32 then
      pure ⟨magic, cputype, cpusubtype, filetype, ncmds, sizeofcmds, flags, none⟩
    else do
      let (_, reserved) ← u32p e r
      pure ⟨magic, cputype, cpusubtype, filetype, ncmds, sizeofcmds, flags,
            some reserved⟩

/-- `usize::saturating_add` on a 64-bit platform. -/
def saturating_add64 (a b : Nat) : Nat := min (a + b) (2 ^ 64 - 1)

/-- `data.get(start..end)` with `start = arch.offset` and
`end = start.saturating_add(arch.size)`: `Some` sub-slice only when the
range lies inside `data`. -/
def sliceOf (data : List Nat) (arch : FatArch) : Option (List Nat) :=
  let start := arch.offset
  let end_ := saturating_add64 start arch.size
  if end_ ≤ data.length then some ((data.drop start).take (end_ - start))
  else none

/-- Endianness implied by a FAT magic number (`parser.rs:182-186`). -/
def fatEndianness (magic : Nat) : Endianness :=
  if magic = FAT_MAGIC ∨ magic = FAT_MAGIC_64 then Endianness.big
  else Endianness.little

/-- Bitness implied by a FAT magic number (`parser.rs:190-194`). -/
def fatIs32 (magic : Nat) : Bool :=
  magic = FAT_MAGIC ∨ magic = FAT_CIGAM

/-- Body of the `for arch in &archs` loop of `parse_fat_macho_file`: parse
the sub-slice of one architecture, pushing the file on success and leaving
the accumulator unchanged when the slice is out of range or its parse
fails. -/
def fatPush (data : List Nat) (fs : List MachOHeader) (arch : FatArch) :
    List MachOHeader :=
  match sliceOf data arch with
  | some macho =>
    match parse_macho_file macho with
    | .ok f => fs ++ [f]
    | .error _ => fs
  | none => fs

/-- `MachO::parse_fat_macho_file`: verifies the FAT magic, derives
endianness/bitness, reads the architecture table with `length_count`, then
parses each architecture sub-slice, pushing the successfully parsed files
and silently skipping both out-of-range slices and parse failures. -/
def parse_fat_macho_file (data : List Nat) : Except PErr MachO := do
  let (r, magic) ← be_u32 data
  if ¬ (magic = FAT_MAGIC ∨ magic = FAT_CIGAM ∨ magic = FAT_MAGIC_64 ∨
        magic = FAT_CIGAM_64) then
    .error .fail
  else
    let (r', n) ← u32p (fatEndianness magic) r
    let (_, archs) ← countP (fatArchP (fatEndianness magic) (fatIs32 magic)) n r'
    pure ⟨some magic, archs, archs.foldl (fatPush data) []⟩

/-- `MachO::parse`: peeks a little-endian `u32`; FAT magics dispatch to the
FAT parser, anything else is parsed as a single-architecture file. -/
def MachO.parse (data : List Nat) : Except PErr MachO := do
  let (_, magic) ← le_u32 data
  if magic = FAT_MAGIC ∨ magic = FAT_CIGAM ∨ magic = FAT_MAGIC_64 ∨
     magic = FAT_CIGAM_64 then
    parse_fat_macho_file data
  else do
    let f ← parse_macho_file data
    pure ⟨none, [], [f]⟩

/-- `fatPush` as an `Option`-valued function on one architecture: the file
entry the architecture contributes, if any. -/
def fatFileOf (data : List Nat) (arch : FatArch) : Option MachOHeader :=
  match sliceOf data arch with
  | some macho =>
    match parse_macho_file macho with
    | .ok f => some f
    | .error _ => none
  | none => none

/-- The concrete scenario of C5: a FAT header declaring two architectures;
the first points at a complete 28-byte 32-bit Mach-O, the second at a
4-byte truncated one (magic only). -/
def fatTwoArchExample : List Nat :=
  [0xCA, 0xFE, 0xBA, 0xBE,  0, 0, 0, 2,
   0, 0, 0, 7,  0, 0, 0, 3,  0, 0, 0, 48,  0, 0, 0, 28,  0, 0, 0, 0,
   1, 0, 0, 0x0C,  0, 0, 0, 0,  0, 0, 0, 76,  0, 0, 0, 4,  0, 0, 0, 0,
   0xFE, 0xED, 0xFA, 0xCE,  0, 0, 0, 7,  0, 0, 0, 3,  0, 0, 0, 2,
   0, 0, 0, 0,  0, 0, 0, 0,  0, 0, 0, 0,
   0xFE, 0xED, 0xFA, 0xCE]

/-! ## Export-trie traversal (`src/lib/src/modules/macho/parser.rs:1173-1250`) -/

/-- `nom`'s `u8`: one byte. -/
def u8p : List Nat → Except PErr (List Nat × Nat)
  | [] => .error .eof
  | b :: r => .ok (r, b)

/-- `take_till(|b| b == 0)` followed by `tag("\x00")`: a NUL-terminated
label.  Returns the label and the input after the NUL; fails when no NUL
follows the label bytes. -/
def readLabel (input : List Nat) : Except PErr (List Nat × List Nat) :=
  match input.dropWhile (fun b => b ≠ 0) with
  | 0 :: r => .ok (r, input.takeWhile (fun b => b ≠ 0))
  | _ => .error .fail

/-- A node of the export trie: its offset within the export data, and the
accumulated name (`prefix` in the source), kept as bytes. -/
structure ExportNode where
  offset : Nat
  pfx : List Nat
deriving DecidableEq, Repr

def EXPORT_SYMBOL_FLAGS_WEAK_DEFINITION : Nat := 0x04

def EXPORT_SYMBOL_FLAGS_REEXPORT : Nat := 0x08

def EXPORT_SYMBOL_FLAGS_STUB_AND_RESOLVER : Nat := 0x10

/-- The `for _ in 0..edges` loop of `parse_exports`: reads `n` edges, each a
NUL-terminated label followed by a ULEB128 offset, and returns the nodes
pushed (in push order).  A node is pushed only when its label passes
`labelOk`, which models `edge_label.to_str()` succeeding (UTF-8 validation
is Rust-std code, so it is kept abstract). -/
def edgeLoop (labelOk : List Nat → Bool) (pfx : List Nat) :
    Nat → List Nat → Except PErr (List ExportNode)
  | 0, _ => .ok []
  | n + 1, input => do
    let (r, label) ← readLabel input
    let (r', off) ← uleb128 r
    let rest ← edgeLoop labelOk pfx n r'
    if labelOk label then pure (⟨off, pfx ++ label⟩ :: rest)
    else pure rest

/-- Processing of one popped trie node (`parser.rs:1192-1246`): read the
ULEB128 `length`; when non-zero read the `flags` and their extra operands
(`STUB_AND_RESOLVER`: two ULEB128s; `REEXPORT`: a ULEB128 and a label;
`WEAK_DEFINITION`: one ULEB128); then read the one-byte edge count and the
edges.  Returns the pushed nodes and whether the node's name is recorded as
an export (`length != 0`).  `skipNodeInfo` is the
`if length != 0 { ... match flags ... }` prelude. -/
def skipNodeInfo (length : Nat) (r : List Nat) : Except PErr (List Nat) :=
  if length ≠ 0 then do
    let (r', flags) ← uleb128 r
    if flags = EXPORT_SYMBOL_FLAGS_STUB_AND_RESOLVER then do
      let (ra, _) ← uleb128 r'
      let (rb, _) ← uleb128 ra
      pure rb
    else if flags = EXPORT_SYMBOL_FLAGS_REEXPORT then do
      let (ra, _) ← uleb128 r'
      let (rb, _) ← readLabel ra
      pure rb
    else if flags = EXPORT_SYMBOL_FLAGS_WEAK_DEFINITION then do
      let (ra, _) ← uleb128 r'
      pure ra
    else pure r'
  else pure r

def processNode (labelOk : List Nat → Bool) (pfx : List Nat)
    (node_data : List Nat) : Except PErr (List ExportNode × Bool) := do
  let (r, length) ← uleb128 node_data
  let r ← skipNodeInfo length r
  let (r', edges) ← u8p r
  let pushed ← edgeLoop labelOk pfx edges r'
  pure (pushed, length ≠ 0)

def parseExportsLoop (labelOk : List Nat → Bool) (data : List Nat) :
    Nat → List ExportNode → List Nat → List (List Nat) →
    Option (Except PErr (List (List Nat)))
  | 0, _, _, _ => none
  | fuel + 1, stack, visited, exports =>
    match stack with
    | [] => some (.ok exports)
    | node :: stack' =>
      if node.offset ∈ visited then
        parseExportsLoop labelOk data fuel stack' visited exports
      else if node.offset ≤ data.length then
        match processNode labelOk node.pfx (data.drop node.offset) with
        | .error e => some (.error e)
        | .ok (pushed, record) =>
          parseExportsLoop labelOk data fuel (pushed.reverse ++ stack')
            (node.offset :: visited)
            (if record then exports ++ [node.pfx] else exports)
      else
        parseExportsLoop labelOk data fuel stack' (node.offset :: visited)
          exports

/-- Fuel that always suffices for `parseExportsLoop` (strictly more than
the measure of the initial state). -/
def exportFuel (data : List Nat) : Nat := 257 * (data.length + 1) + 2

/-- `MachOFile::parse_exports`: traverses the export trie depth-first from
offset 0 with cycle detection through the visited-offset set, returning the
accumulated export names.  When `data` is empty the loop never runs.  The
`getD` default is dead code: the termination theorem below shows the fuel
is never exhausted. -/
def parse_exports (labelOk : List Nat → Bool) (data : List Nat) :
    Except PErr (List (List Nat)) :=
  if data.isEmpty then .ok []
  else (parseExportsLoop labelOk data (exportFuel data) [⟨0, []⟩] [] []).getD
    (.ok [])

/-- Offsets that can still contribute a processed node: the in-range
offsets (`data.get(offset..)` is `Some` iff `offset ≤ data.len()`) not yet
in the visited set. -/
def validCount (data : List Nat) (visited : List Nat) : Nat :=
  ((Finset.range (data.length + 1)).filter (fun o => o ∉ visited)).card

/-- Termination measure for the trie traversal: every iteration pops one
node, and only a never-visited in-range offset can push (at most 255) new
nodes while permanently leaving the unvisited set. -/
def exportMeasure (data : List Nat) (stack : List ExportNode)
    (visited : List Nat) : Nat :=
  stack.length + 257 * validCount data visited

/-! ## Pike VM (`src/yara-x/src/re/pikevm.rs`)

`PikeVM::try_match` lives in `src`, but the instruction set, `decode_instr`
and `epsilon_closure` live in `re/instr.rs`, which is not part of this
source tree.  Those parts are modelled from the spec: instructions are a
tagged type (code is a list of instructions, so `decode_instr` is list
indexing and every instruction has size 1, with relative jump offsets
counted in instructions); the epsilon closure of an instruction pointer is
the set of non-epsilon instructions reachable through `Jump`/`Split`
(alternatives in preference order), appended to the target thread list
without duplicates — the spec's per-step uniqueness bitset.  Anchors and
bounded repetitions, which this claim does not involve, are omitted, and
the backward iterator (used only by anchors) with them. -/

/-- Modelled from the spec: the regex instruction values (§3), restricted
to the variants exercised by `try_match`'s dispatch loop. -/
inductive Instr where
  | anyByte
  | byte (b : Nat)
  | maskedByte (v m : Nat)
  | classRanges (rs : List (Nat × Nat))
  | jump (off : Int)
  | split (a b : Int)
  | imatch
  | eoi
deriving DecidableEq, Repr

/-- Target of a relative jump from instruction `ip`. -/
def tgt (ip : Nat) (off : Int) : Nat := ((ip : Int) + off).toNat

/-- The `is_match` test of `try_match`'s dispatch (`pikevm.rs:84-97`): does
the instruction at a thread consume the current byte?  `None` (end of
input) matches nothing, as in `matches!(byte, Some(byte) if ...)`. -/
def instrMatches : Instr → Option Nat → Bool
  | .anyByte, some _ => true
  | .byte e, some b => b == e
  | .maskedByte e m, some b => b &&& m == e
  | .classRanges rs, some b => rs.any (fun p => decide (p.1 ≤ b ∧ b ≤ p.2))
  | _, _ => false

/-- Modelled from the spec: depth-first epsilon closure with a visited set
(cycle protection) and deduplication against the accumulated thread list.
The fuel only bounds the DFS; `epsFuel` exceeds its worst case
`3 * |code| + stack size`. -/
def epsClosureF (code : List Instr) :
    Nat → List Nat → List Nat → List Nat → List Nat
  | 0, _, _, acc => acc
  | fuel + 1, stack, visited, acc =>
    match stack with
    | [] => acc
    | ip :: stack' =>
      if ip ∈ visited then epsClosureF code fuel stack' visited acc
      else
        match code[ip]? with
        | some (.jump off) =>
          epsClosureF code fuel (tgt ip off :: stack') (ip :: visited) acc
        | some (.split a b) =>
          epsClosureF code fuel (tgt ip a :: tgt ip b :: stack') (ip :: visited) acc
        | some _ =>
          epsClosureF code fuel stack' (ip :: visited)
            (if ip ∈ acc then acc else acc ++ [ip])
        | none => epsClosureF code fuel stack' (ip :: visited) acc

def epsFuel (code : List Instr) : Nat := 3 * code.length + 2

/-- `epsilon_closure(code, start, ..., closure)`: appends to `acc` the
non-epsilon instructions reachable from `start`. -/
def epsClosure (code : List Instr) (start : Nat) (acc : List Nat) : List Nat :=
  epsClosureF code (epsFuel code) [start] [] acc

/-- The `for ip in self.threads` loop of one `try_match` iteration
(`pikevm.rs:81-120`): processes threads in priority order; a surviving
consuming thread schedules the epsilon closure of its successor into the
next thread list; `Match` records the current byte count and stops the
scan of the remaining (lower-priority) threads of this step; `Eoi` stops
it without recording.  `Jump`/`Split` never appear in a thread list
(`unreachable!()` in the source). -/
def stepThreads (code : List Instr) (pos : Nat) (byte : Option Nat) :
    List Nat → List Nat → Option Nat → List Nat × Option Nat
  | [], acc, matched => (acc, matched)
  | ip :: rest, acc, matched =>
    match code[ip]? with
    | some .imatch => (acc, some pos)
    | some .eoi => (acc, matched)
    | some (.jump _) => stepThreads code pos byte rest acc matched
    | some (.split _ _) => stepThreads code pos byte rest acc matched
    | some i =>
      if instrMatches i byte then
        stepThreads code pos byte rest (epsClosure code (ip + 1) acc) matched
      else
        stepThreads code pos byte rest acc matched
    | none => stepThreads code pos byte rest acc matched

/-- The `while !self.threads.is_empty()` loop of `try_match`.  `byte` is
the current byte, `rest` the bytes after it.  When the input is exhausted
(`rest = []`) one more iteration can still run with the threads scheduled
by the last byte; with `byte = None` no thread schedules a successor
(`stepThreads_none_schedules_nothing` below), so the loop then stops. -/
def vmLoop (code : List Instr) (threads : List Nat) (byte : Option Nat)
    (rest : List Nat) (pos : Nat) (matched : Option Nat) : Option Nat :=
  if threads.isEmpty then matched
  else
    match rest with
    | next :: rest' =>
      let s := stepThreads code pos byte threads [] matched
      vmLoop code s.1 (some next) rest' (pos + 1) s.2
    | [] =>
      let s := stepThreads code pos byte threads [] matched
      if s.1.isEmpty then s.2
      else (stepThreads code (pos + 1) none s.1 [] s.2).2

/-- `PikeVM::try_match`: runs the epsilon closure of the entry point, then
the thread loop, returning the recorded byte count (if any). -/
def try_match (code : List Instr) (start : Nat) (input : List Nat) :
    Option Nat :=
  vmLoop code (epsClosure code start []) input.head? input.tail 0 none

/-- A partial run of the regex program: from `ip`, consuming exactly the
bytes `bs`, control reaches the pending instruction `j`.  Epsilon steps
follow `Jump` or either side of a `Split`; a consuming step requires the
instruction at `ip` to match the byte. -/
inductive Exec (code : List Instr) : Nat → List Nat → Nat → Prop where
  | refl (i : Nat) : Exec code i [] i
  | jump {i j : Nat} {bs : List Nat} (off : Int) :
      code[i]? = some (.jump off) → Exec code (tgt i off) bs j →
      Exec code i bs j
  | splitL {i j : Nat} {bs : List Nat} (a b : Int) :
      code[i]? = some (.split a b) → Exec code (tgt i a) bs j →
      Exec code i bs j
  | splitR {i j : Nat} {bs : List Nat} (a b : Int) :
      code[i]? = some (.split a b) → Exec code (tgt i b) bs j →
      Exec code i bs j
  | step {i j : Nat} {b : Nat} {bs : List Nat} {instr : Instr} :
      code[i]? = some instr → instrMatches instr (some b) = true →
      Exec code (i + 1) bs j → Exec code i (b :: bs) j

/-- An accepting run from `start` consuming exactly `n` of the forward
bytes: a prefix of length `n` of the input is consumed by a run reaching a
`Match` instruction. -/
def Accepts (code : List Instr) (start : Nat) (input : List Nat) (n : Nat) :
    Prop :=
  ∃ bs rest j, input = bs ++ rest ∧ bs.length = n ∧ Exec code start bs j ∧
    code[j]? = some .imatch

/-! ## Condition-module structure and global-rule semantics
(`src/lib/src/wasm/builder.rs:257-434`)

The builder emits, per rule, the rule's condition code followed by the
`finish_rule` epilogue; rules are grouped into `rules_N` functions of
`rules_per_func` rules (`start_rule` closes the current function when the
count is reached), each namespace is a block calling its rules functions
with a `br_if` after each call, and `main` calls the namespace functions.
The model evaluates this emitted structure for one scan: each rule's
condition code leaves an `i32` truth value on the stack, recorded in
`cond`.  The host functions `rule_match`/`rule_no_match` live in the
scanner (not under `src/`); their effect on the per-scan state is modelled
from the spec. -/

/-- One rule as the builder sees it: its id, whether it is global, and the
truth value its condition code leaves on the stack for the scanned input. -/
structure RuleInfo where
  id : Nat
  global : Bool
  cond : Bool
deriving DecidableEq, Repr

/-- Host calls emitted by the per-rule epilogue. -/
inductive RuleEvent where
  | ruleMatch (id : Nat)
  | ruleNoMatch (id : Nat)
deriving DecidableEq, Repr

/-- Evaluation of one `rules_N` function body (the concatenated per-rule
code of `finish_rule`, `builder.rs:277-325`, plus the trailing `i32.const 0`
added by `finish_rule_func`): for each rule, if the condition is zero and
the rule is global, call `rule_no_match(rule_id)` and return 1 immediately;
if zero and non-global, do nothing (`rules-profiling` disabled); otherwise
call `rule_match(rule_id)`.  Returns the emitted host calls and the
function's `i32` result. -/
def rulesFuncEval : List RuleInfo → List RuleEvent → List RuleEvent × Nat
  | [], evs => (evs, 0)
  | r :: rest, evs =>
    if r.cond = false then
      if r.global then (evs ++ [.ruleNoMatch r.id], 1)
      else rulesFuncEval rest evs
    else rulesFuncEval rest (evs ++ [.ruleMatch r.id])

/-- Grouping of a namespace's rules into `rules_N` functions by
`start_rule`: chunks of `rules_per_func` rules (with `rules_per_func = 0`
the count never resets after the first increment, so all rules land in one
function). -/
def chunksOf {α : Type} (n : Nat) : List α → List (List α)
  | [] => []
  | a :: l =>
    if n = 0 then [a :: l]
    else (a :: l).take n :: chunksOf n ((a :: l).drop n)
termination_by l => l.length
decreasing_by
  simp only [List.length_drop, List.length_cons]
  omega

/-- Evaluation of one namespace block (`builder.rs:402-434`): call each
rules function in order; after each call, `br_if` exits the block when the
result is non-zero. -/
def namespaceBlockEval : List (List RuleInfo) → List RuleEvent →
    List RuleEvent
  | [], evs => evs
  | c :: rest, evs =>
    let s := rulesFuncEval c evs
    if s.2 ≠ 0 then s.1
    else namespaceBlockEval rest s.1

/-- The host calls a namespace's rules produce during one scan, with
`rules_per_func = n`. -/
def namespaceEval (n : Nat) (rules : List RuleInfo) : List RuleEvent :=
  namespaceBlockEval (chunksOf n rules) []

/-- Modelled from the spec: the per-scan effect of the host functions on
the namespace's recorded matches.  `rule_match(id)` records the rule;
`rule_no_match(id)` — called for a false global rule — reverts every match
already recorded in the namespace. -/
def applyEvent (matched : Finset Nat) : RuleEvent → Finset Nat
  | .ruleMatch id => insert id matched
  | .ruleNoMatch _ => ∅

def matchedOfEvents (evs : List RuleEvent) : Finset Nat :=
  evs.foldl applyEvent ∅

/-- The namespace's contribution to `matching_rules` for one scan. -/
def namespaceMatching (n : Nat) (rules : List RuleInfo) : Finset Nat :=
  matchedOfEvents (namespaceEval n rules)

/-! ## Scan-result partition (scanner driver; modelled from the spec)

The scanner itself is not under `src/` (only its tests are); per the spec,
`matching_rules` collects the rules recorded by the host calls of the
condition module and `non_matching_rules` is its complement within the rule
set. -/

def eventId : RuleEvent → Nat
  | .ruleMatch i => i
  | .ruleNoMatch i => i

/-- Rule ids of one namespace. -/
def nsIds (rules : List RuleInfo) : Finset Nat :=
  (rules.map RuleInfo.id).toFinset

/-- Modelled from the spec: `matching_rules` after one scan — the union of
the namespaces' recorded matches (`main` calls every namespace block). -/
def scanMatching (n : Nat) (nss : List (List RuleInfo)) : Finset Nat :=
  (nss.map (namespaceMatching n)).foldr (· ∪ ·) ∅

/-- All rules of the compiled rule set. -/
def scanAllRules (nss : List (List RuleInfo)) : Finset Nat :=
  (nss.map nsIds).foldr (· ∪ ·) ∅

/-- Modelled from the spec: the non-matching-rules set is the complement of
the matching set within the rule set. -/
def scanNonMatching (n : Nat) (nss : List (List RuleInfo)) : Finset Nat :=
  scanAllRules nss \ scanMatching n nss

/-! ## C-API compiler object (`src/capi/src/compiler.rs`) -/

/-- Modelled from the spec: the state of a `yara_x::Compiler` (the crate
itself is not under `src/`).  Configuration flags (§6: `relaxed_re_syntax`,
`condition_optimization`, `colorize_errors`, `error_on_slow_pattern`,
`error_on_slow_loop`, `enable_includes`) plus the state accumulated by
`add_source` and friends.  `Compiler::new()` starts with all flags off,
includes enabled, and everything empty. -/
structure Compiler where
  relaxedRe : Bool
  conditionOptimization : Bool
  colorizeErrors : Bool
  errorOnSlowPattern : Bool
  errorOnSlowLoop : Bool
  includesEnabled : Bool
  sources : List (List Nat)
  namespaces : List (List Nat)
  includeDirs : List (List Nat)
  ignoredModules : List (List Nat)
  bannedModules : List (List Nat × List Nat × List Nat)
  features : List (List Nat)
  globals : List (List Nat)
deriving DecidableEq, Repr

/-- `yara_x::Compiler::new()`. -/
def Compiler.new : Compiler :=
  ⟨false, false, false, false, false, true, [], [], [], [], [], [], []⟩

def YRX_COLORIZE_ERRORS : Nat := 1

def YRX_RELAXED_RE_SYNTAX : Nat := 2

def YRX_ERROR_ON_SLOW_PATTERN : Nat := 4

def YRX_ERROR_ON_SLOW_LOOP : Nat := 8

def YRX_ENABLE_CONDITION_OPTIMIZATION : Nat := 16

def YRX_DISABLE_INCLUDES : Nat := 32

/-- `_yrx_compiler_create(flags)` (`compiler.rs:54-75`): a fresh compiler
with each configuration setter applied when the corresponding flag bit is
set. -/
def _yrx_compiler_create (flags : Nat) : Compiler :=
  let c := Compiler.new
  let c := if flags &&& YRX_RELAXED_RE_SYNTAX ≠ 0 then
    { c with relaxedRe := true } else c
  let c := if flags &&& YRX_ENABLE_CONDITION_OPTIMIZATION ≠ 0 then
    { c with conditionOptimization := true } else c
  let c := if flags &&& YRX_COLORIZE_ERRORS ≠ 0 then
    { c with colorizeErrors := true } else c
  let c := if flags &&& YRX_ERROR_ON_SLOW_PATTERN ≠ 0 then
    { c with errorOnSlowPattern := true } else c
  let c := if flags &&& YRX_ERROR_ON_SLOW_LOOP ≠ 0 then
    { c with errorOnSlowLoop := true } else c
  if flags &&& YRX_DISABLE_INCLUDES ≠ 0 then
    { c with includesEnabled := false } else c

/-- The `YRX_COMPILER` object: the wrapped compiler and the creation
flags, which are kept for the object's whole lifetime. -/
structure YRX_COMPILER where
  inner : Compiler
  flags : Nat
deriving DecidableEq, Repr

/-- `yrx_compiler_create(flags)`. -/
def yrx_compiler_create (flags : Nat) : YRX_COMPILER :=
  ⟨_yrx_compiler_create flags, flags⟩

/-- `yrx_compiler_add_source` / `yrx_compiler_add_include_dir`: examples of
the operations that accumulate state in the wrapped compiler. -/
def yrx_compiler_add_source (c : YRX_COMPILER) (src : List Nat) :
    YRX_COMPILER :=
  { c with inner := { c.inner with sources := c.inner.sources ++ [src] } }

def yrx_compiler_add_include_dir (c : YRX_COMPILER) (dir : List Nat) :
    YRX_COMPILER :=
  { c with inner :=
      { c.inner with includeDirs := c.inner.includeDirs ++ [dir] } }

/-- `yrx_compiler_build` (`compiler.rs:574-595`): the wrapped compiler is
consumed by `build()` and replaced — via `mem::replace` — with
`_yrx_compiler_create(compiler.flags)`; the `flags` field is untouched. -/
def yrx_compiler_build (c : YRX_COMPILER) : YRX_COMPILER :=
  { c with inner := _yrx_compiler_create c.flags }

/-! ## Theorems -/

lemma getElemBang_cons_succ {α : Type} [Inhabited α] (a : α) (l : List α)
    (i : Nat) : (a :: l)[i + 1]! = l[i]! := by
  simp [getElem!_def]

lemma getElemBang_cons_zero {α : Type} [Inhabited α] (a : α) (l : List α) :
    (a :: l)[0]! = a := by
  simp [getElem!_def]

/-- Characterization of when `uleb128Loop` succeeds: there must be a byte
with clear continuation bit at an index `i` such that the shift used for it,
`shift + 7 * i`, is still below 64, with all earlier bytes having the
continuation bit set. -/
lemma uleb128Loop_ok_iff (input : List Nat) (val shift : Nat) :
    (∃ r, uleb128Loop input val shift = .ok r) ↔
    ∃ i, i < input.length ∧ shift + 7 * i < 64 ∧ input[i]! &&& 0x80 = 0 ∧
      ∀ j, j < i → input[j]! &&& 0x80 ≠ 0 := by
  induction input generalizing val shift with
  | nil =>
    simp [uleb128Loop]
  | cons byte rest ih =>
    rw [uleb128Loop]
    by_cases hs : 64 ≤ shift
    · simp only [hs, if_true]
      constructor
      · rintro ⟨r, hr⟩; cases hr
      · rintro ⟨i, -, hlt, -⟩; omega
    · simp only [hs, if_false]
      by_cases hb : byte &&& 0x80 = 0
      · have hb'' : (byte &&& 0x80 == 0) = true := by simpa using hb
        simp only [hb'', if_true]
        constructor
        · intro _
          exact ⟨0, by simp, by omega, by simpa [getElemBang_cons_zero], by omega⟩
        · intro _
          exact ⟨_, rfl⟩
      · have hb' : (byte &&& 0x80 == 0) = false := by simpa using hb
        simp only [hb', Bool.false_eq_true, if_false]
        rw [ih]
        constructor
        · rintro ⟨i, hi, hsh, hclear, hprev⟩
          refine ⟨i + 1, by simpa using hi, by omega, ?_, ?_⟩
          · simpa [getElemBang_cons_succ] using hclear
          · intro j hj
            cases j with
            | zero => simpa [getElemBang_cons_zero] using hb
            | succ j => rw [getElemBang_cons_succ]; exact hprev j (by omega)
        · rintro ⟨i, hi, hsh, hclear, hprev⟩
          cases i with
          | zero => rw [getElemBang_cons_zero] at hclear; exact absurd hclear hb
          | succ i =>
            refine ⟨i, by simpa using hi, by omega, ?_, ?_⟩
            · simpa [getElemBang_cons_succ] using hclear
            · intro j hj
              have := hprev (j + 1) (by omega)
              simpa [getElemBang_cons_succ] using this

/-- **C3, counterexample.** The claim states that `uleb128` "fails exactly
when accumulating a payload would require a left shift of 64 bits or more".
This is false at the concrete input `[0x80]`: the parser fails (the input is
exhausted after a byte whose continuation bit is set, nom's `Eof` error)
although no byte of this input is ever processed at a shift of 64 or more. -/
theorem uleb128_fails_without_shift64 :
    uleb128 [0x80] = .error .eof ∧ ¬ ulebNeedsShift64 [0x80] := by
  refine ⟨by rfl, ?_⟩
  rintro ⟨j, hj, h64, -⟩
  simp only [List.length_singleton] at hj
  omega

/-- **C3, amended.** The `uleb128` parser maps `E5 8E 26` to `Ok(624485)`
consuming all three bytes, maps `7F` to `Ok(127)`, and returns an error (the
`TooLarge` error of the failed `checked_shl`) on the 11-byte input
`80 80 80 80 80 80 80 80 80 80 00`.  In general it succeeds exactly when a
byte with clear continuation bit appears at an index `i` with `7 * i < 64`
(i.e. among the first ten bytes), all earlier bytes having the continuation
bit set; it fails otherwise — either because some byte would require a left
shift of 64 bits or more, or because the input is exhausted before a byte
with clear continuation bit is found. -/
theorem uleb128_spec :
    uleb128 [0xE5, 0x8E, 0x26] = .ok ([], 624485) ∧
    uleb128 [0x7F] = .ok ([], 127) ∧
    uleb128 [0x80, 0x80, 0x80, 0x80, 0x80, 0x80, 0x80, 0x80, 0x80, 0x80,
             0x00] = .error .tooLarge ∧
    ∀ input : List Nat,
      (∃ r, uleb128 input = .ok r) ↔
      ∃ i, i < input.length ∧ 7 * i < 64 ∧ input[i]! &&& 0x80 = 0 ∧
        ∀ j, j < i → input[j]! &&& 0x80 ≠ 0 := by
  refine ⟨by rfl, by rfl, by rfl, ?_⟩
  intro input
  simpa using uleb128Loop_ok_iff input 0 0

/-- `a ||| b * 2 ^ n = a + b * 2 ^ n` when `a` fits in the low `n` bits:
the two operands have disjoint bits. -/
lemma lor_mul_pow_eq_add (n a b : Nat) (h : a < 2 ^ n) :
    a ||| b * 2 ^ n = a + b * 2 ^ n := by
  apply Nat.eq_of_testBit_eq
  intro i
  have hmul : b * 2 ^ n = 2 ^ n * b := Nat.mul_comm _ _
  rw [Nat.add_comm, hmul, Nat.testBit_mul_pow_two_add _ h, Nat.testBit_lor,
    Nat.testBit_mul_pow_two]
  by_cases hi : i < n
  · simp [hi, Nat.not_le_of_lt hi]
  · have : a.testBit i = false :=
      Nat.testBit_lt_two_pow
        (lt_of_lt_of_le h (Nat.pow_le_pow_right (by omega) (by omega)))
    simp [hi, Nat.le_of_not_lt hi, this]

lemma payloadU_lt (l : List Nat) : payloadU l < 2 ^ (7 * l.length) := by
  induction l with
  | nil => simp [payloadU]
  | cons b rest ih =>
    have hb : b &&& 0x7f ≤ 127 := Nat.and_le_right
    have : 2 ^ (7 * (b :: rest).length) = 128 * 2 ^ (7 * rest.length) := by
      simp only [List.length_cons]
      rw [show 7 * (rest.length + 1) = 7 + 7 * rest.length by ring, pow_add]
      norm_num
    rw [this, payloadU]
    omega

/-- On the bytes actually consumed by a successful `sleb128` run, `slebValue`
is the unsigned payload minus `2 ^ (7 * k)` when the terminator's sign bit is
set. -/
lemma slebValue_eq (input : List Nat) :
    ∀ i, i < input.length →
    input[i]! &&& 0x80 = 0 → (∀ j, j < i → input[j]! &&& 0x80 ≠ 0) →
    slebValue (input.take (i + 1)) =
      (payloadU (input.take (i + 1)) : Int) -
        (if input[i]! &&& 0x40 ≠ 0 then 2 ^ (7 * (i + 1)) else 0) := by
  induction input with
  | nil => intro i hi; simp at hi
  | cons b rest ih =>
    intro i hi hterm hcont
    cases i with
    | zero =>
      rw [getElemBang_cons_zero] at hterm ⊢
      simp only [List.take_succ_cons, List.take_zero, slebValue, payloadU, hterm,
        if_true]
      norm_num
    | succ i =>
      have hb : b &&& 0x80 ≠ 0 := by
        have := hcont 0 (by omega)
        rwa [getElemBang_cons_zero] at this
      rw [getElemBang_cons_succ] at hterm ⊢
      have hih := ih i (by simpa using hi) hterm (fun j hj => by
        have := hcont (j + 1) (by omega)
        rwa [getElemBang_cons_succ] at this)
      simp only [List.take_succ_cons, slebValue, hb, if_neg hb, payloadU]
      rw [hih]
      push_cast
      by_cases hsign : rest[i]! &&& 0x40 ≠ 0
      · rw [if_pos hsign, if_pos hsign,
          show (7 : Nat) * (i + 1 + 1) = 7 + 7 * (i + 1) by ring, pow_add]
        push_cast
        ring
      · rw [if_neg hsign, if_neg hsign]
        ring

/-- Invariant of the `sleb128` loop: with a terminator at index `i` reached
while all shifts stay below 64, the loop consumes `i + 1` bytes and
accumulates the 7-bit payload groups (shifted past the bits already held in
`val`). -/
lemma sleb128Loop_ok (input : List Nat) :
    ∀ i val shift, i < input.length →
    input[i]! &&& 0x80 = 0 → (∀ j, j < i → input[j]! &&& 0x80 ≠ 0) →
    shift + 7 * (i + 1) ≤ 64 → val < 2 ^ shift →
    sleb128Loop input val shift =
      .ok (input.drop (i + 1),
           val + payloadU (input.take (i + 1)) * 2 ^ shift,
           shift + 7 * (i + 1), input[i]!) := by
  induction input with
  | nil => intro i _ _ hi; simp at hi
  | cons b rest ih =>
    intro i val shift hi hterm hcont hsh hval
    have hs : ¬ 64 ≤ shift := by omega
    have hb7 : b &&& 0x7f ≤ 127 := Nat.and_le_right
    have hpow : (2 : Nat) ^ (shift + 7) = 2 ^ shift * 128 := by
      rw [pow_add]; norm_num
    have h2 : 0 < 2 ^ shift := Nat.two_pow_pos shift
    have hble : (b &&& 0x7f) * 2 ^ shift ≤ 127 * 2 ^ shift :=
      mul_le_mul_right' hb7 _
    have hshl : (b &&& 0x7f) <<< shift % 2 ^ 64 = (b &&& 0x7f) * 2 ^ shift := by
      rw [Nat.shiftLeft_eq, Nat.mod_eq_of_lt]
      calc (b &&& 0x7f) * 2 ^ shift < 2 ^ (shift + 7) := by rw [hpow]; omega
        _ ≤ 2 ^ 64 := Nat.pow_le_pow_right (by omega) (by omega)
    have hlor : val ||| (b &&& 0x7f) <<< shift % 2 ^ 64
        = val + (b &&& 0x7f) * 2 ^ shift := by
      rw [hshl, lor_mul_pow_eq_add _ _ _ hval]
    cases i with
    | zero =>
      rw [getElemBang_cons_zero] at hterm
      have hb' : (b &&& 0x80 == 0) = true := by simpa using hterm
      rw [sleb128Loop]
      simp only [hs, if_false, hb', if_true, hlor, Bool.false_eq_true]
      rw [getElemBang_cons_zero]
      simp [payloadU, Nat.mul_comm]
    | succ i =>
      have hb : b &&& 0x80 ≠ 0 := by
        have := hcont 0 (by omega)
        rwa [getElemBang_cons_zero] at this
      have hb' : (b &&& 0x80 == 0) = false := by simpa using hb
      rw [getElemBang_cons_succ] at hterm
      rw [sleb128Loop]
      simp only [hs, if_false, hb', Bool.false_eq_true, hlor]
      have hih := ih i (val + (b &&& 0x7f) * 2 ^ shift) (shift + 7)
        (by simpa using hi) hterm
        (fun j hj => by
          have := hcont (j + 1) (by omega)
          rwa [getElemBang_cons_succ] at this)
        (by omega)
        (by rw [hpow]; omega)
      rw [hih, getElemBang_cons_succ]
      simp only [List.drop_succ_cons, List.take_succ_cons, payloadU]
      have harith : val + (b &&& 0x7f) * 2 ^ shift
            + payloadU (rest.take (i + 1)) * 2 ^ (shift + 7)
          = val + ((b &&& 0x7f) + 128 * payloadU (rest.take (i + 1))) * 2 ^ shift := by
        rw [hpow]; ring
      have hsha : shift + 7 + 7 * (i + 1) = shift + 7 * (i + 1 + 1) := by ring
      rw [harith, hsha]

/-- **C4.** The `sleb128` parser maps `C7 9F 7F` to `Ok(-12345)`, `7F` to
`Ok(-1)` and `9C 7F` to `Ok(-100)`.  In general, when the first byte with
clear continuation bit sits at index `i` with fewer than 64 payload bits
consumed (`7 * (i + 1) < 64`), the parser consumes `i + 1` bytes and returns
their `slebValue`: the little-endian 7-bit payload, sign-extended exactly
when the final byte's sign bit (`0x40`) is set. -/
theorem sleb128_spec :
    sleb128 [0xC7, 0x9F, 0x7F] = .ok ([], -12345) ∧
    sleb128 [0x7F] = .ok ([], -1) ∧
    sleb128 [0x9C, 0x7F] = .ok ([], -100) ∧
    ∀ (input : List Nat) (i : Nat),
      i < input.length → 7 * (i + 1) < 64 →
      (∀ j, j < i → input[j]! &&& 0x80 ≠ 0) → input[i]! &&& 0x80 = 0 →
      sleb128 input = .ok (input.drop (i + 1), slebValue (input.take (i + 1))) := by
  refine ⟨by rfl, by rfl, by rfl, ?_⟩
  intro input i hi hsh hcont hterm
  have hloop := sleb128Loop_ok input i 0 0 hi hterm hcont (by omega) (by norm_num)
  have hplt : payloadU (input.take (i + 1)) < 2 ^ (7 * (i + 1)) := by
    have := payloadU_lt (input.take (i + 1))
    rwa [List.length_take, Nat.min_eq_left (by omega)] at this
  have hple : (2 : Nat) ^ (7 * (i + 1)) ≤ 2 ^ 63 :=
    Nat.pow_le_pow_right (by omega) (by omega)
  have hveq := slebValue_eq input i hi hterm hcont
  rw [sleb128, hloop]
  simp only [bind, Except.bind, pow_zero, mul_one, Nat.zero_add, pure,
    Except.pure]
  by_cases hsign : input[i]! &&& 0x40 ≠ 0
  · rw [if_pos (⟨hsh, hsign⟩ : 7 * (i + 1) < 64 ∧ input[i]! &&& 0x40 ≠ 0)]
    have hmask : (2 : Nat) ^ 64 - 2 ^ (7 * (i + 1))
        = (2 ^ (64 - 7 * (i + 1)) - 1) * 2 ^ (7 * (i + 1)) := by
      rw [Nat.sub_mul, one_mul, ← pow_add]
      congr 2
      omega
    have hlor : payloadU (input.take (i + 1)) ||| (2 ^ 64 - 2 ^ (7 * (i + 1)))
        = payloadU (input.take (i + 1)) + (2 ^ 64 - 2 ^ (7 * (i + 1))) := by
      rw [hmask, lor_mul_pow_eq_add _ _ _ hplt, ← hmask]
    rw [hlor]
    have h64 : (2 : Nat) ^ 64 = 2 * 2 ^ 63 := by norm_num [pow_succ, Nat.mul_comm]
    have hge : ¬ (payloadU (input.take (i + 1)) + (2 ^ 64 - 2 ^ (7 * (i + 1)))
        < 2 ^ 63) := by omega
    rw [toI64, if_neg hge, hveq, if_pos hsign]
    simp only [Except.ok.injEq, Prod.mk.injEq, true_and]
    push_cast [Nat.cast_sub (Nat.pow_le_pow_right (by omega : 1 ≤ 2)
      (by omega : 7 * (i + 1) ≤ 64))]
    ring
  · rw [if_neg (fun h => hsign h.2), toI64,
      if_pos (lt_of_lt_of_le hplt hple), hveq, if_neg hsign]
    norm_num

theorem sleb128_spec_witness :
    sleb128 [0x9C, 0x7F] = .ok ([], slebValue [0x9C, 0x7F]) := by
  have h := sleb128_spec.2.2.2 [0x9C, 0x7F] 1 (by norm_num) (by norm_num)
    (by decide) (by decide)
  simpa using h

/-- **C10.** `rva_to_offset` returns `some v` exactly when there is a first
segment containing `rva` in `[vmaddr, vmaddr + vmsize)`, every earlier
segment has a non-overflowing `vmaddr + vmsize` and does not contain `rva`,
the containing segment's own `vmaddr + vmsize` does not overflow, the final
addition `fileoff + (rva - vmaddr)` does not overflow `u64`, and
`v = fileoff + (rva - vmaddr)`.  In every other case (no containing segment,
or an overflow in any segment examined before one is found, or overflow of
the final addition) it returns `none`. -/
theorem rva_to_offset_spec (segs : List Segment) (rva v : Nat) :
    rva_to_offset segs rva = some v ↔
    ∃ i, i < segs.length ∧
      (∀ j, j < i → segs[j]!.vmaddr + segs[j]!.vmsize < 2 ^ 64 ∧
        ¬ (segs[j]!.vmaddr ≤ rva ∧ rva < segs[j]!.vmaddr + segs[j]!.vmsize)) ∧
      segs[i]!.vmaddr + segs[i]!.vmsize < 2 ^ 64 ∧
      segs[i]!.vmaddr ≤ rva ∧ rva < segs[i]!.vmaddr + segs[i]!.vmsize ∧
      segs[i]!.fileoff + (rva - segs[i]!.vmaddr) < 2 ^ 64 ∧
      v = segs[i]!.fileoff + (rva - segs[i]!.vmaddr) := by
  induction segs with
  | nil => simp [rva_to_offset]
  | cons seg rest ih =>
    rw [rva_to_offset]
    by_cases hov : seg.vmaddr + seg.vmsize < 2 ^ 64
    · simp only [show checked_add seg.vmaddr seg.vmsize
          = some (seg.vmaddr + seg.vmsize) from if_pos hov]
      by_cases hcont : seg.vmaddr ≤ rva ∧ rva < seg.vmaddr + seg.vmsize
      · rw [if_pos hcont]
        simp only [show checked_sub rva seg.vmaddr = some (rva - seg.vmaddr)
          from if_pos hcont.1]
        constructor
        · intro hv
          refine ⟨0, by simp, by omega, ?_⟩
          rw [getElemBang_cons_zero]
          unfold checked_add at hv
          split at hv
          · injection hv with hv
            exact ⟨hov, hcont.1, hcont.2, by assumption, hv.symm⟩
          · cases hv
        · rintro ⟨i, hi, hprev, hrest⟩
          cases i with
          | zero =>
            rw [getElemBang_cons_zero] at hrest
            obtain ⟨-, -, -, hfo, hv⟩ := hrest
            unfold checked_add
            rw [if_pos hfo, hv]
          | succ i =>
            have h0 := hprev 0 (by omega)
            rw [getElemBang_cons_zero] at h0
            exact absurd hcont h0.2
      · rw [if_neg hcont, ih]
        constructor
        · rintro ⟨i, hi, hprev, hrest⟩
          refine ⟨i + 1, by simpa using hi, ?_, ?_⟩
          · intro j hj
            cases j with
            | zero => rw [getElemBang_cons_zero]; exact ⟨hov, hcont⟩
            | succ j => rw [getElemBang_cons_succ]; exact hprev j (by omega)
          · rw [getElemBang_cons_succ]; exact hrest
        · rintro ⟨i, hi, hprev, hrest⟩
          cases i with
          | zero =>
            rw [getElemBang_cons_zero] at hrest
            exact absurd ⟨hrest.2.1, hrest.2.2.1⟩ hcont
          | succ i =>
            refine ⟨i, by simpa using hi, ?_, ?_⟩
            · intro j hj
              have := hprev (j + 1) (by omega)
              rwa [getElemBang_cons_succ] at this
            · rwa [getElemBang_cons_succ] at hrest
    · simp only [show checked_add seg.vmaddr seg.vmsize = none from if_neg hov,
        false_iff, reduceCtorEq]
      rintro ⟨i, hi, hprev, hrest⟩
      cases i with
      | zero =>
        rw [getElemBang_cons_zero] at hrest
        exact hov hrest.1
      | succ i =>
        have h0 := hprev 0 (by omega)
        rw [getElemBang_cons_zero] at h0
        exact hov h0.1

/-- **C6.** For a pattern id in range (an `i32` whose bitmap byte address
does not wrap), `check_for_pattern_match` returns 1 when bit
`pattern_id % 8` of the byte at `bitmap_base + pattern_id / 8` is set, and
0 otherwise — i.e. exactly the value of bit `pattern_id` of the
matching-patterns bitmap. -/
theorem check_for_pattern_match_spec (mem : Nat → Nat) (base pid : Nat)
    (_hpid : pid < 2 ^ 32) (haddr : base + pid / 8 < 2 ^ 32) :
    check_for_pattern_match mem base pid =
      if (mem (base + pid / 8) % 256).testBit (pid % 8) then 1 else 0 := by
  unfold check_for_pattern_match
  have h1 : pid >>> 3 = pid / 8 := by
    rw [Nat.shiftRight_eq_div_pow]
  have h2 : (pid / 8 + base) % 2 ^ 32 = base + pid / 8 := by
    rw [Nat.add_comm, Nat.mod_eq_of_lt haddr]
  have htmp : pid % 8 < 8 := Nat.mod_lt _ (by norm_num)
  have h3 : (1 <<< (pid % 8)) % 2 ^ 32 = 2 ^ (pid % 8) := by
    rw [Nat.shiftLeft_eq, one_mul, Nat.mod_eq_of_lt]
    exact Nat.pow_lt_pow_right (by norm_num) (by omega)
  simp only [h1, h2, h3]
  rw [Nat.and_two_pow, Nat.shiftRight_eq_div_pow,
    Nat.mul_div_cancel _ (Nat.two_pow_pos _)]
  cases h : (mem (base + pid / 8) % 256).testBit (pid % 8) <;> simp [h]

/-- Witness for `check_for_pattern_match_spec` at a concrete memory, base
and pattern id: bit 18 of the bitmap at base 3 lives in the byte at
address 5, whose value 4 has bit 2 set. -/
theorem check_for_pattern_match_spec_witness :
    check_for_pattern_match (fun a => if a = 5 then 4 else 0) 3 18 = 1 := by
  rw [check_for_pattern_match_spec (fun a => if a = 5 then 4 else 0) 3 18
    (by norm_num) (by norm_num)]
  norm_num
  decide

lemma be_u32_shape (data r : List Nat) (v : Nat)
    (h : be_u32 data = .ok (r, v)) :
    ∃ b0 b1 b2 b3, data = b0 :: b1 :: b2 :: b3 :: r ∧
      v = ((b0 * 256 + b1) * 256 + b2) * 256 + b3 := by
  match data with
  | [] | [_] | [_, _] | [_, _, _] => simp [be_u32] at h
  | b0 :: b1 :: b2 :: b3 :: rest =>
    simp only [be_u32, Except.ok.injEq, Prod.mk.injEq] at h
    exact ⟨b0, b1, b2, b3, by rw [h.1], h.2.symm⟩

lemma fatPush_foldl (data : List Nat) (archs : List FatArch)
    (fs : List MachOHeader) :
    archs.foldl (fatPush data) fs = fs ++ archs.filterMap (fatFileOf data) := by
  induction archs generalizing fs with
  | nil => simp
  | cons a archs ih =>
    rw [List.foldl_cons, ih, List.filterMap_cons]
    unfold fatPush fatFileOf
    cases hs : sliceOf data a with
    | none => simp
    | some m =>
      cases hp : parse_macho_file m with
      | ok f => simp [hp]
      | error e => simp [hp]

/-- **C5.** Once the FAT header and architecture table of a FAT binary have
parsed, `MachO::parse` always returns `Ok`: each architecture sub-slice is
parsed independently, a failure (out-of-range `offset`/`size`, truncation,
or any inner parse error) is skipped and never propagated, and `files`
collects exactly the architectures whose sub-slice parsed successfully. -/
theorem parse_fat_skips_bad_archs (data r1 r2 r3 : List Nat) (magic n : Nat)
    (archs : List FatArch)
    (hbytes : ∀ b ∈ data, b < 256)
    (hmagic : be_u32 data = .ok (r1, magic))
    (hfat : magic = FAT_MAGIC ∨ magic = FAT_CIGAM ∨ magic = FAT_MAGIC_64 ∨
      magic = FAT_CIGAM_64)
    (hn : u32p (fatEndianness magic) r1 = .ok (r2, n))
    (harchs : countP (fatArchP (fatEndianness magic) (fatIs32 magic)) n r2
      = .ok (r3, archs)) :
    MachO.parse data = .ok ⟨some magic, archs, archs.filterMap (fatFileOf data)⟩ := by
  obtain ⟨b0, b1, b2, b3, hdata, hv⟩ := be_u32_shape data r1 magic hmagic
  subst hdata
  have h0 : b0 < 256 := hbytes b0 (by simp)
  have h1 : b1 < 256 := hbytes b1 (by simp)
  have h2 : b2 < 256 := hbytes b2 (by simp)
  have h3 : b3 < 256 := hbytes b3 (by simp)
  have hle : le_u32 (b0 :: b1 :: b2 :: b3 :: r1)
      = .ok (r1, ((b3 * 256 + b2) * 256 + b1) * 256 + b0) := rfl
  have hlefat : ((b3 * 256 + b2) * 256 + b1) * 256 + b0 = FAT_MAGIC ∨
      ((b3 * 256 + b2) * 256 + b1) * 256 + b0 = FAT_CIGAM ∨
      ((b3 * 256 + b2) * 256 + b1) * 256 + b0 = FAT_MAGIC_64 ∨
      ((b3 * 256 + b2) * 256 + b1) * 256 + b0 = FAT_CIGAM_64 := by
    subst hv
    unfold FAT_MAGIC FAT_CIGAM FAT_MAGIC_64 FAT_CIGAM_64 at *
    omega
  rw [MachO.parse, hle]
  simp only [bind, Except.bind]
  rw [if_pos hlefat, parse_fat_macho_file, hmagic]
  simp only [bind, Except.bind]
  rw [if_neg (not_not_intro hfat), hn]
  simp only [bind, Except.bind]
  rw [harchs]
  simp only [bind, Except.bind, pure, Except.pure, fatPush_foldl,
    List.nil_append]

/-- Witness for `parse_fat_skips_bad_archs`: on the two-architecture FAT
input whose second architecture is truncated, `MachO::parse` succeeds with
both architectures listed but exactly one populated file entry. -/
theorem parse_fat_skips_bad_archs_witness :
    MachO.parse fatTwoArchExample =
      .ok ⟨some FAT_MAGIC,
           [⟨7, 3, 48, 28, 0, 0⟩, ⟨0x0100000C, 0, 76, 4, 0, 0⟩],
           [⟨MH_MAGIC, 7, 3, 2, 0, 0, 0, none⟩]⟩ := by
  have h := parse_fat_skips_bad_archs fatTwoArchExample
    (fatTwoArchExample.drop 4) (fatTwoArchExample.drop 8)
    (fatTwoArchExample.drop 48) FAT_MAGIC 2
    [⟨7, 3, 48, 28, 0, 0⟩, ⟨0x0100000C, 0, 76, 4, 0, 0⟩]
    (by decide) (by rfl) (Or.inl rfl) (by rfl) (by rfl)
  exact h.trans (by rfl)

/-- The `while !stack.is_empty() && !data.is_empty()` loop of
`parse_exports`, with explicit fuel.  `none` means the fuel ran out (the
theorem below shows this cannot happen with `exportFuel`); otherwise the
result is the loop's outcome: the accumulated exports, or the parse error
propagated by a `?` inside the loop body.  Each iteration pops a node,
skips it when already visited, otherwise marks it visited and — when
`data.get(offset..)` is in range — processes it, pushing its edges. -/

lemma uleb128Loop_suffix (input : List Nat) :
    ∀ val shift r v, uleb128Loop input val shift = .ok (r, v) →
      r <:+ input := by
  induction input with
  | nil => intro val shift r v h; simp [uleb128Loop] at h
  | cons byte rest ih =>
    intro val shift r v h
    rw [uleb128Loop] at h
    split at h
    · cases h
    · split at h
      · simp only [Except.ok.injEq, Prod.mk.injEq] at h
        rw [← h.1]
        exact (List.suffix_cons byte rest)
      · exact (ih _ _ _ _ h).trans (List.suffix_cons byte rest)

lemma uleb128_suffix (input r : List Nat) (v : Nat)
    (h : uleb128 input = .ok (r, v)) : r <:+ input :=
  uleb128Loop_suffix input 0 0 r v h

lemma readLabel_suffix (input r : List Nat) (label : List Nat)
    (h : readLabel input = .ok (r, label)) : r <:+ input := by
  unfold readLabel at h
  split at h
  · rename_i heq
    simp only [Except.ok.injEq, Prod.mk.injEq] at h
    have h1 : r <:+ input.dropWhile (fun b => b ≠ 0) := by
      rw [heq, ← h.1]
      exact List.suffix_cons 0 _
    exact h1.trans (List.dropWhile_suffix _)
  · cases h

lemma u8p_mem (input r : List Nat) (b : Nat) (h : u8p input = .ok (r, b)) :
    b ∈ input := by
  cases input with
  | nil => simp [u8p] at h
  | cons x xs =>
    simp only [u8p, Except.ok.injEq, Prod.mk.injEq] at h
    rw [← h.2]
    exact List.mem_cons_self x xs

lemma edgeLoop_length (labelOk : List Nat → Bool) (pfx : List Nat) :
    ∀ n input l, edgeLoop labelOk pfx n input = .ok l → l.length ≤ n := by
  intro n
  induction n with
  | zero =>
    intro input l h
    simp only [edgeLoop, Except.ok.injEq] at h
    simp [← h]
  | succ n ih =>
    intro input l h
    rw [edgeLoop] at h
    simp only [bind, Except.bind] at h
    cases h1 : readLabel input with
    | error e => rw [h1] at h; cases h
    | ok p1 =>
      rw [h1] at h
      obtain ⟨r, label⟩ := p1
      dsimp only at h
      cases h2 : uleb128 r with
      | error e => rw [h2] at h; cases h
      | ok p2 =>
        rw [h2] at h
        obtain ⟨r', off⟩ := p2
        dsimp only at h
        cases h3 : edgeLoop labelOk pfx n r' with
        | error e => rw [h3] at h; cases h
        | ok rest =>
          rw [h3] at h
          dsimp only at h
          have hr := ih r' rest h3
          split at h
          · simp only [pure, Except.pure, Except.ok.injEq] at h
            rw [← h]
            simpa using hr
          · simp only [pure, Except.pure, Except.ok.injEq] at h
            rw [← h]
            omega

lemma skipNodeInfo_suffix (length : Nat) (r r2 : List Nat)
    (h : skipNodeInfo length r = .ok r2) : r2 <:+ r := by
  unfold skipNodeInfo at h
  split at h
  · simp only [bind, Except.bind] at h
    cases h1 : uleb128 r with
    | error e => rw [h1] at h; cases h
    | ok p1 =>
      rw [h1] at h
      obtain ⟨r', flags⟩ := p1
      dsimp only at h
      have hr' : r' <:+ r := uleb128_suffix _ _ _ h1
      split at h
      · cases h2 : uleb128 r' with
        | error e => rw [h2] at h; cases h
        | ok p2 =>
          rw [h2] at h
          obtain ⟨ra, _⟩ := p2
          dsimp only at h
          cases h3 : uleb128 ra with
          | error e => rw [h3] at h; cases h
          | ok p3 =>
            rw [h3] at h
            obtain ⟨rb, _⟩ := p3
            simp only [pure, Except.pure, Except.ok.injEq] at h
            rw [← h]
            exact ((uleb128_suffix _ _ _ h3).trans
              (uleb128_suffix _ _ _ h2)).trans hr'
      · split at h
        · cases h2 : uleb128 r' with
          | error e => rw [h2] at h; cases h
          | ok p2 =>
            rw [h2] at h
            obtain ⟨ra, _⟩ := p2
            dsimp only at h
            cases h3 : readLabel ra with
            | error e => rw [h3] at h; cases h
            | ok p3 =>
              rw [h3] at h
              obtain ⟨rb, _⟩ := p3
              simp only [pure, Except.pure, Except.ok.injEq] at h
              rw [← h]
              exact ((readLabel_suffix _ _ _ h3).trans
                (uleb128_suffix _ _ _ h2)).trans hr'
        · split at h
          · cases h2 : uleb128 r' with
            | error e => rw [h2] at h; cases h
            | ok p2 =>
              rw [h2] at h
              obtain ⟨ra, _⟩ := p2
              simp only [pure, Except.pure, Except.ok.injEq] at h
              rw [← h]
              exact (uleb128_suffix _ _ _ h2).trans hr'
          · simp only [pure, Except.pure, Except.ok.injEq] at h
            rw [← h]
            exact hr'
  · simp only [pure, Except.pure, Except.ok.injEq] at h
    rw [← h]

lemma processNode_pushed_le (labelOk : List Nat → Bool) (pfx node_data : List Nat)
    (pushed : List ExportNode) (rec : Bool)
    (hbytes : ∀ x ∈ node_data, x < 256)
    (h : processNode labelOk pfx node_data = .ok (pushed, rec)) :
    pushed.length ≤ 255 := by
  unfold processNode at h
  simp only [bind, Except.bind] at h
  cases h1 : uleb128 node_data with
  | error e => rw [h1] at h; cases h
  | ok p1 =>
    rw [h1] at h
    obtain ⟨r, length⟩ := p1
    dsimp only at h
    cases h2 : skipNodeInfo length r with
    | error e => rw [h2] at h; cases h
    | ok r2 =>
      rw [h2] at h
      dsimp only at h
      cases h3 : u8p r2 with
      | error e => rw [h3] at h; cases h
      | ok p3 =>
        rw [h3] at h
        obtain ⟨r', edges⟩ := p3
        dsimp only at h
        cases h4 : edgeLoop labelOk pfx edges r' with
        | error e => rw [h4] at h; cases h
        | ok l =>
          rw [h4] at h
          simp only [pure, Except.pure, Except.ok.injEq, Prod.mk.injEq] at h
          have hedge : edges < 256 := by
            apply hbytes
            have hmem : edges ∈ r2 := u8p_mem _ _ _ h3
            have hsub : r2 <:+ node_data :=
              (skipNodeInfo_suffix _ _ _ h2).trans (uleb128_suffix _ _ _ h1)
            exact hsub.subset hmem
          have := edgeLoop_length labelOk pfx edges r' l h4
          rw [← h.1]
          omega

lemma validCount_cons_le (data visited : List Nat) (o : Nat) :
    validCount data (o :: visited) ≤ validCount data visited := by
  apply Finset.card_le_card
  intro x hx
  simp only [Finset.mem_filter, Finset.mem_range, List.mem_cons, not_or] at *
  tauto

lemma validCount_cons_lt (data visited : List Nat) (o : Nat)
    (ho : o ≤ data.length) (hnv : o ∉ visited) :
    validCount data (o :: visited) < validCount data visited := by
  apply Finset.card_lt_card
  rw [Finset.ssubset_def]
  constructor
  · intro x hx
    simp only [Finset.mem_filter, Finset.mem_range, List.mem_cons, not_or] at *
    tauto
  · intro hsub
    have ho' : o ∈ (Finset.range (data.length + 1)).filter
        (fun x => x ∉ visited) := by
      simp only [Finset.mem_filter, Finset.mem_range]
      exact ⟨by omega, hnv⟩
    have := hsub ho'
    simp at this

/-- With fuel above the measure, the traversal loop never exhausts it. -/
lemma parseExportsLoop_no_fuelout (labelOk : List Nat → Bool)
    (data : List Nat) (hbytes : ∀ b ∈ data, b < 256) :
    ∀ fuel stack visited exports,
      exportMeasure data stack visited < fuel →
      parseExportsLoop labelOk data fuel stack visited exports ≠ none := by
  intro fuel
  induction fuel with
  | zero =>
    intro stack visited exports h
    omega
  | succ fuel ih =>
    intro stack visited exports hm
    cases stack with
    | nil => rw [parseExportsLoop]; simp
    | cons node stack' =>
      rw [parseExportsLoop]
      by_cases hv : node.offset ∈ visited
      · rw [if_pos hv]
        apply ih
        unfold exportMeasure at *
        simp only [List.length_cons] at hm
        omega
      · rw [if_neg hv]
        by_cases hin : node.offset ≤ data.length
        · rw [if_pos hin]
          cases hp : processNode labelOk node.pfx (data.drop node.offset) with
          | error e => simp
          | ok p =>
            obtain ⟨pushed, record⟩ := p
            apply ih
            have hlen := processNode_pushed_le labelOk node.pfx
              (data.drop node.offset) pushed record
              (fun x hx => hbytes x ((List.drop_suffix _ _).subset hx)) hp
            have hdec := validCount_cons_lt data visited node.offset hin hv
            unfold exportMeasure at *
            simp only [List.length_cons, List.length_append,
              List.length_reverse] at *
            omega
        · rw [if_neg hin]
          apply ih
          have hle := validCount_cons_le data visited node.offset
          unfold exportMeasure at *
          simp only [List.length_cons] at hm
          omega

/-- **C8.** `parse_exports` terminates on every input: each popped offset
is inserted into the visited set before processing and an already-visited
offset is skipped, so every in-range offset is processed at most once
(nodes on a cycle of edge offsets included); the fuel `exportFuel data`
exceeds the measure of the initial state and is never exhausted, so the
traversal always reaches a final state — the stack empties, or a parse
error returns early. -/
theorem parse_exports_terminates (labelOk : List Nat → Bool)
    (data : List Nat) (hbytes : ∀ b ∈ data, b < 256) :
    parseExportsLoop labelOk data (exportFuel data) [⟨0, []⟩] [] []
      ≠ none := by
  apply parseExportsLoop_no_fuelout labelOk data hbytes
  have hvc : validCount data [] = data.length + 1 := by
    rw [validCount]
    simp
  rw [exportMeasure, exportFuel, hvc]
  simp
  omega

/-- Witness for `parse_exports_terminates`: a 5-byte export trie whose
single node has one edge labelled `"a"` pointing back to offset 0 (a
cycle).  The traversal still reaches a final state. -/
theorem parse_exports_terminates_witness :
    parseExportsLoop (fun _ => true) [0x00, 0x01, 0x61, 0x00, 0x00]
      (exportFuel [0x00, 0x01, 0x61, 0x00, 0x00]) [⟨0, []⟩] [] [] ≠ none :=
  parse_exports_terminates (fun _ => true) [0x00, 0x01, 0x61, 0x00, 0x00]
    (by decide)

lemma Exec.append {code : List Instr} {i j k : Nat} {bs cs : List Nat}
    (h1 : Exec code i bs j) (h2 : Exec code j cs k) :
    Exec code i (bs ++ cs) k := by
  induction h1 with
  | refl => simpa using h2
  | jump off hc _ ih => exact .jump off hc (ih h2)
  | splitL a b hc _ ih => exact .splitL a b hc (ih h2)
  | splitR a b hc _ ih => exact .splitR a b hc (ih h2)
  | step hc hm _ ih => exact .step hc hm (ih h2)

lemma epsClosureF_sound (code : List Instr) :
    ∀ fuel stack visited acc ip',
      ip' ∈ epsClosureF code fuel stack visited acc →
      ip' ∈ acc ∨ ∃ s ∈ stack, Exec code s [] ip' := by
  intro fuel
  induction fuel with
  | zero =>
    intro stack visited acc ip' h
    rw [epsClosureF] at h
    exact Or.inl h
  | succ fuel ih =>
    intro stack visited acc ip' h
    match stack with
    | [] =>
      rw [epsClosureF] at h
      exact Or.inl h
    | ip :: stack' =>
      rw [epsClosureF] at h
      split at h
      · rcases ih _ _ _ _ h with h' | ⟨s, hs, he⟩
        · exact Or.inl h'
        · exact Or.inr ⟨s, List.mem_cons_of_mem _ hs, he⟩
      · rename_i hnv
        split at h
        · rename_i off hc
          rcases ih _ _ _ _ h with h' | ⟨s, hs, he⟩
          · exact Or.inl h'
          · rcases List.mem_cons.mp hs with rfl | hs'
            · exact Or.inr ⟨ip, List.mem_cons_self _ _, .jump off hc he⟩
            · exact Or.inr ⟨s, List.mem_cons_of_mem _ hs', he⟩
        · rename_i a b hc
          rcases ih _ _ _ _ h with h' | ⟨s, hs, he⟩
          · exact Or.inl h'
          · rcases List.mem_cons.mp hs with rfl | hs'
            · exact Or.inr ⟨ip, List.mem_cons_self _ _, .splitL a b hc he⟩
            · rcases List.mem_cons.mp hs' with rfl | hs''
              · exact Or.inr ⟨ip, List.mem_cons_self _ _, .splitR a b hc he⟩
              · exact Or.inr ⟨s, List.mem_cons_of_mem _ hs'', he⟩
        · rcases ih _ _ _ _ h with h' | ⟨s, hs, he⟩
          · by_cases hmem : ip ∈ acc
            · rw [if_pos hmem] at h'
              exact Or.inl h'
            · rw [if_neg hmem] at h'
              rcases List.mem_append.mp h' with h'' | h''
              · exact Or.inl h''
              · rcases List.mem_singleton.mp h'' with rfl
                exact Or.inr ⟨ip', List.mem_cons_self _ _, .refl ip'⟩
          · exact Or.inr ⟨s, List.mem_cons_of_mem _ hs, he⟩
        · rcases ih _ _ _ _ h with h' | ⟨s, hs, he⟩
          · exact Or.inl h'
          · exact Or.inr ⟨s, List.mem_cons_of_mem _ hs, he⟩

lemma epsClosure_sound {code : List Instr} {s0 : Nat} {acc : List Nat}
    {ip' : Nat} (h : ip' ∈ epsClosure code s0 acc) :
    ip' ∈ acc ∨ Exec code s0 [] ip' := by
  rcases epsClosureF_sound code _ _ _ _ _ h with h' | ⟨s, hs, he⟩
  · exact Or.inl h'
  · rcases List.mem_singleton.mp hs with rfl
    exact Or.inr he

lemma instrMatches_none (i : Instr) : instrMatches i none = false := by
  cases i <;> rfl

lemma stepThreads_matched (code : List Instr) (pos : Nat) (byte : Option Nat) :
    ∀ threads acc matched,
      (stepThreads code pos byte threads acc matched).2 = matched ∨
      ((stepThreads code pos byte threads acc matched).2 = some pos ∧
        ∃ ip ∈ threads, code[ip]? = some .imatch) := by
  intro threads
  induction threads with
  | nil => intro acc matched; left; rfl
  | cons ip rest ih =>
    intro acc matched
    rw [stepThreads]
    have push : ∀ (acc' : List Nat),
        (stepThreads code pos byte rest acc' matched).2 = matched ∨
        ((stepThreads code pos byte rest acc' matched).2 = some pos ∧
          ∃ i ∈ ip :: rest, code[i]? = some .imatch) := by
      intro acc'
      rcases ih acc' matched with h | ⟨h1, i, hm, hi⟩
      · exact Or.inl h
      · exact Or.inr ⟨h1, i, List.mem_cons_of_mem _ hm, hi⟩
    cases hc : code[ip]? with
    | none => simpa only [hc] using push acc
    | some instr =>
      cases instr with
      | imatch =>
        exact Or.inr ⟨rfl, ip, List.mem_cons_self _ _, hc⟩
      | eoi => left; rfl
      | jump off => simpa only [hc] using push acc
      | split a b => simpa only [hc] using push acc
      | anyByte =>
        simp only [hc]
        split
        · exact push _
        · exact push acc
      | byte b =>
        simp only [hc]
        split
        · exact push _
        · exact push acc
      | maskedByte v m =>
        simp only [hc]
        split
        · exact push _
        · exact push acc
      | classRanges rs =>
        simp only [hc]
        split
        · exact push _
        · exact push acc

lemma stepThreads_threads (code : List Instr) (pos : Nat) (byte : Option Nat) :
    ∀ threads acc matched ip',
      ip' ∈ (stepThreads code pos byte threads acc matched).1 →
      ip' ∈ acc ∨ ∃ ip ∈ threads, ∃ instr, code[ip]? = some instr ∧
        instrMatches instr byte = true ∧ Exec code (ip + 1) [] ip' := by
  intro threads
  induction threads with
  | nil => intro acc matched ip' h; exact Or.inl h
  | cons ip rest ih =>
    intro acc matched ip' h
    rw [stepThreads] at h
    have push : ∀ (acc' : List Nat), ip' ∈
        (stepThreads code pos byte rest acc' matched).1 →
        ip' ∈ acc' ∨ ∃ i ∈ ip :: rest, ∃ instr, code[i]? = some instr ∧
          instrMatches instr byte = true ∧ Exec code (i + 1) [] ip' := by
      intro acc' h'
      rcases ih acc' matched ip' h' with h'' | ⟨i, hm, instr, hci, hmi, he⟩
      · exact Or.inl h''
      · exact Or.inr ⟨i, List.mem_cons_of_mem _ hm, instr, hci, hmi, he⟩
    have sched : ∀ (instr : Instr), code[ip]? = some instr →
        instrMatches instr byte = true →
        ip' ∈ (stepThreads code pos byte rest
          (epsClosure code (ip + 1) acc) matched).1 →
        ip' ∈ acc ∨ ∃ i ∈ ip :: rest, ∃ instr, code[i]? = some instr ∧
          instrMatches instr byte = true ∧ Exec code (i + 1) [] ip' := by
      intro instr hci hmi h'
      rcases push _ h' with h'' | h''
      · rcases epsClosure_sound h'' with h3 | h3
        · exact Or.inl h3
        · exact Or.inr ⟨ip, List.mem_cons_self _ _, instr, hci, hmi, h3⟩
      · exact Or.inr h''
    cases hc : code[ip]? with
    | none => rw [hc] at h; exact push acc h
    | some instr =>
      cases instr with
      | imatch => rw [hc] at h; exact Or.inl h
      | eoi => rw [hc] at h; exact Or.inl h
      | jump off => rw [hc] at h; exact push acc h
      | split a b => rw [hc] at h; exact push acc h
      | anyByte =>
        rw [hc] at h
        dsimp only at h
        split at h
        · exact sched _ hc (by assumption) h
        · exact push acc h
      | byte b =>
        rw [hc] at h
        dsimp only at h
        split at h
        · exact sched _ hc (by assumption) h
        · exact push acc h
      | maskedByte v m =>
        rw [hc] at h
        dsimp only at h
        split at h
        · exact sched _ hc (by assumption) h
        · exact push acc h
      | classRanges rs =>
        rw [hc] at h
        dsimp only at h
        split at h
        · exact sched _ hc (by assumption) h
        · exact push acc h

lemma vmLoop_sound (code : List Instr) (s0 : Nat) :
    ∀ (rest threads : List Nat) (byte : Option Nat) (matched : Option Nat)
      (consumed : List Nat) (n : Nat),
      (byte = none → rest = []) →
      (∀ ip ∈ threads, Exec code s0 consumed ip) →
      (∀ m, matched = some m →
        Accepts code s0 (consumed ++ byte.toList ++ rest) m) →
      vmLoop code threads byte rest consumed.length matched = some n →
      Accepts code s0 (consumed ++ byte.toList ++ rest) n := by
  intro rest
  induction rest with
  | nil =>
    intro threads byte matched consumed n hbn hth hmat hv
    rw [vmLoop] at hv
    by_cases hemp : threads.isEmpty
    · rw [if_pos hemp] at hv
      exact hmat n hv
    · rw [if_neg hemp] at hv
      dsimp only at hv
      have hfirst : ∀ m,
          (stepThreads code consumed.length byte threads [] matched).2
            = some m →
          Accepts code s0 (consumed ++ byte.toList ++ []) m := by
        intro m hm
        rcases stepThreads_matched code consumed.length byte threads []
            matched with h | ⟨h1, ip, hip, hc⟩
        · exact hmat m (h ▸ hm)
        · rw [h1] at hm
          injection hm with hm
          exact ⟨consumed, byte.toList ++ [], ip, by simp, hm, hth ip hip, hc⟩
      split at hv
      · exact hfirst n hv
      · rcases stepThreads_matched code (consumed.length + 1) none
            (stepThreads code consumed.length byte threads [] matched).1 []
            (stepThreads code consumed.length byte threads [] matched).2
          with h | ⟨h1, ip, hip, hc⟩
        · exact hfirst n (h ▸ hv)
        · rw [h1] at hv
          injection hv with hv
          rcases stepThreads_threads code consumed.length byte threads []
              matched ip hip with h2 | ⟨ip0, hip0, instr, hci, hmi, he⟩
          · simp at h2
          · cases byte with
            | none => rw [instrMatches_none] at hmi; cases hmi
            | some b =>
              have hexec : Exec code s0 (consumed ++ [b]) ip :=
                Exec.append (hth ip0 hip0)
                  (Exec.step hci hmi (by simpa using he))
              exact ⟨consumed ++ [b], [], ip, by simp, by simp [← hv], hexec, hc⟩
  | cons next rest' ih =>
    intro threads byte matched consumed n hbn hth hmat hv
    rw [vmLoop] at hv
    by_cases hemp : threads.isEmpty
    · rw [if_pos hemp] at hv
      exact hmat n hv
    · rw [if_neg hemp] at hv
      dsimp only at hv
      cases byte with
      | none => cases hbn rfl
      | some b =>
        have hth' : ∀ ip ∈ (stepThreads code consumed.length (some b) threads
            [] matched).1, Exec code s0 (consumed ++ [b]) ip := by
          intro ip hip
          rcases stepThreads_threads code consumed.length (some b) threads []
              matched ip hip with h2 | ⟨ip0, hip0, instr, hci, hmi, he⟩
          · simp at h2
          · exact Exec.append (hth ip0 hip0)
              (Exec.step hci hmi (by simpa using he))
        have hmat' : ∀ m, (stepThreads code consumed.length (some b) threads
            [] matched).2 = some m →
            Accepts code s0 ((consumed ++ [b]) ++ (some next).toList ++ rest')
              m := by
          intro m hm
          rcases stepThreads_matched code consumed.length (some b) threads []
              matched with h | ⟨h1, ip, hip, hc⟩
          · have := hmat m (h ▸ hm)
            simpa [List.append_assoc] using this
          · rw [h1] at hm
            injection hm with hm
            exact ⟨consumed, [b] ++ next :: rest', ip, by simp, hm,
              hth ip hip, hc⟩
        have hlen : (consumed ++ [b]).length = consumed.length + 1 := by simp
        have := ih (stepThreads code consumed.length (some b) threads []
            matched).1 (some next)
          (stepThreads code consumed.length (some b) threads [] matched).2
          (consumed ++ [b]) n (by simp) hth' hmat' (by rw [hlen]; exact hv)
        simpa [List.append_assoc] using this

/-- **C2, counterexample.** The claim states that `try_match` returns the
number of bytes consumed on the *shortest* accepting run, returning
immediately when `Match` is reached.  On the program
`Split(+1,+2); Byte 97; Match` with input `[97]` there is an accepting run
consuming 0 bytes (the split's second branch reaches `Match` directly), yet
`try_match` returns `some 1`: when `Match` is reached at step 0 the VM only
breaks out of the current thread list and continues with the
already-scheduled higher-priority thread, whose later `Match` overwrites
the recorded count. -/
theorem try_match_not_shortest :
    try_match [.split 1 2, .byte 97, .imatch] 0 [97] = some 1 ∧
    Accepts [.split 1 2, .byte 97, .imatch] 0 [97] 0 := by
  refine ⟨by decide, [], [97], 2, rfl, rfl, ?_, rfl⟩
  exact Exec.splitR 1 2 rfl (.refl 2)

/-- **C2, amended.** `try_match` returns `some n` only when some accepting
run consumes exactly `n` forward bytes (soundness).  The VM does not return
immediately on `Match` and the count returned is not necessarily the
shortest: reaching `Match` records the current byte count and stops the
current step's scan of lower-priority threads, but the loop continues with
the threads already scheduled, so the result is the count recorded at the
last `Match` reached. -/
theorem try_match_sound (code : List Instr) (start : Nat) (input : List Nat)
    (n : Nat) (h : try_match code start input = some n) :
    Accepts code start input n := by
  have halign : ([] : List Nat) ++ input.head?.toList ++ input.tail
      = input := by
    cases input <;> simp
  have hth : ∀ ip ∈ epsClosure code start [], Exec code start [] ip := by
    intro ip hip
    rcases epsClosure_sound hip with h' | h'
    · simp at h'
    · exact h'
  have hres := vmLoop_sound code start input.tail (epsClosure code start [])
    input.head? none [] n
    (by
      intro hnone
      cases input with
      | nil => rfl
      | cons a t => simp at hnone)
    hth (fun m hm => by cases hm) h
  rwa [halign] at hres

/-- Witness for `try_match_sound`: the VM reports a 1-byte match of
`Byte 97; Match` on `[97]`, and indeed an accepting run consumes 1 byte. -/
theorem try_match_sound_witness :
    Accepts [Instr.byte 97, Instr.imatch] 0 [97] 1 :=
  try_match_sound [Instr.byte 97, Instr.imatch] 0 [97] 1 (by decide)

lemma rulesFuncEval_ret1 (c : List RuleInfo) (evs : List RuleEvent)
    (hg : ∃ g ∈ c, g.global = true ∧ g.cond = false) :
    ∃ evs' g, rulesFuncEval c evs = (evs' ++ [.ruleNoMatch g.id], 1) ∧
      g ∈ c ∧ g.global = true ∧ g.cond = false := by
  induction c generalizing evs with
  | nil => simp at hg
  | cons r rest ih =>
    rw [rulesFuncEval]
    by_cases hc : r.cond = false
    · by_cases hgl : r.global = true
      · refine ⟨evs, r, ?_, List.mem_cons_self _ _, hgl, hc⟩
        simp [hc, hgl]
      · obtain ⟨g, hm, hgg, hgc⟩ := hg
        have hm' : g ∈ rest := by
          rcases List.mem_cons.mp hm with rfl | h
          · exact absurd hgg hgl
          · exact h
        obtain ⟨evs', g', hres, hmem, h1, h2⟩ := ih evs ⟨g, hm', hgg, hgc⟩
        refine ⟨evs', g', ?_, List.mem_cons_of_mem _ hmem, h1, h2⟩
        simp only [hc, if_true, if_neg hgl]
        simpa using hres
    · obtain ⟨g, hm, hgg, hgc⟩ := hg
      have hm' : g ∈ rest := by
        rcases List.mem_cons.mp hm with rfl | h
        · exact absurd hgc hc
        · exact h
      obtain ⟨evs', g', hres, hmem, h1, h2⟩ := ih (evs ++ [.ruleMatch r.id])
        ⟨g, hm', hgg, hgc⟩
      refine ⟨evs', g', ?_, List.mem_cons_of_mem _ hmem, h1, h2⟩
      simp only [if_neg hc]
      exact hres

lemma rulesFuncEval_ret0 (c : List RuleInfo) (evs : List RuleEvent)
    (hg : ∀ g ∈ c, g.global = true → g.cond = true) :
    (rulesFuncEval c evs).2 = 0 := by
  induction c generalizing evs with
  | nil => rfl
  | cons r rest ih =>
    rw [rulesFuncEval]
    by_cases hc : r.cond = false
    · by_cases hgl : r.global = true
      · have := hg r (List.mem_cons_self _ _) hgl
        rw [this] at hc
        cases hc
      · simp only [hc, if_true, if_neg hgl]
        exact ih evs (fun g hm => hg g (List.mem_cons_of_mem _ hm))
    · simp only [if_neg hc]
      exact ih _ (fun g hm => hg g (List.mem_cons_of_mem _ hm))

lemma chunksOf_join {α : Type} (n : Nat) (l : List α) :
    (chunksOf n l).flatten = l := by
  suffices h : ∀ len (l : List α), l.length = len →
      (chunksOf n l).flatten = l from h l.length l rfl
  intro len
  induction len using Nat.strong_induction_on with
  | _ len ih =>
    intro l hl
    cases l with
    | nil => simp [chunksOf]
    | cons a t =>
      rw [chunksOf]
      by_cases hn : n = 0
      · simp [hn]
      · rw [if_neg hn]
        have hlt : ((a :: t).drop n).length < len := by
          rw [← hl]
          simp only [List.length_drop, List.length_cons]
          omega
        rw [List.flatten, ih _ hlt _ rfl, List.take_append_drop]

lemma namespaceBlockEval_global_false (chunks : List (List RuleInfo))
    (evs : List RuleEvent)
    (hg : ∃ c ∈ chunks, ∃ g ∈ c, g.global = true ∧ g.cond = false) :
    ∃ evs' g, namespaceBlockEval chunks evs
        = evs' ++ [.ruleNoMatch (RuleInfo.id g)] ∧
      (∃ c ∈ chunks, g ∈ c) ∧ g.global = true ∧ g.cond = false := by
  induction chunks generalizing evs with
  | nil => simp at hg
  | cons c rest ih =>
    rw [namespaceBlockEval]
    by_cases hc : ∃ g ∈ c, g.global = true ∧ g.cond = false
    · obtain ⟨evs', g, hres, hmem, h1, h2⟩ := rulesFuncEval_ret1 c evs hc
      refine ⟨evs', g, ?_, ⟨c, List.mem_cons_self _ _, hmem⟩, h1, h2⟩
      rw [hres]
      simp
    · have hret := rulesFuncEval_ret0 c evs (by
        intro g hm hgl
        by_contra hcond
        exact hc ⟨g, hm, hgl, by simpa using hcond⟩)
      have hrest : ∃ c' ∈ rest, ∃ g ∈ c', g.global = true ∧ g.cond = false := by
        obtain ⟨c', hm', hgc⟩ := hg
        rcases List.mem_cons.mp hm' with rfl | h
        · exact absurd hgc hc
        · exact ⟨c', h, hgc⟩
      obtain ⟨evs', g, hres, ⟨c', hm', hgm⟩, h1, h2⟩ :=
        ih (rulesFuncEval c evs).1 hrest
      refine ⟨evs', g, ?_, ⟨c', List.mem_cons_of_mem _ hm', hgm⟩, h1, h2⟩
      rw [if_neg (by simp [hret]), hres]

lemma matchedOfEvents_ends_noMatch (evs : List RuleEvent) (id : Nat) :
    matchedOfEvents (evs ++ [.ruleNoMatch id]) = ∅ := by
  rw [matchedOfEvents, List.foldl_append]
  rfl

/-- **C1.** When a namespace contains a global rule whose condition code
leaves 0 on the stack, the emitted code calls `rule_no_match(rule_id)` and
returns 1 from the enclosing rules function, the namespace block's `br_if`
exits the block so no later rules function of the namespace runs, and the
host-call trace of the namespace ends with that `rule_no_match`, which
reverts every match recorded so far: the namespace contributes no rule to
`matching_rules`. -/
theorem global_false_suppresses_namespace (n : Nat) (rules : List RuleInfo)
    (hg : ∃ g ∈ rules, g.global = true ∧ g.cond = false) :
    (∃ evs g, namespaceEval n rules = evs ++ [.ruleNoMatch (RuleInfo.id g)] ∧
      g ∈ rules ∧ g.global = true ∧ g.cond = false) ∧
    namespaceMatching n rules = ∅ := by
  have hchunks : ∃ c ∈ chunksOf n rules, ∃ g ∈ c,
      g.global = true ∧ g.cond = false := by
    obtain ⟨g, hm, h1, h2⟩ := hg
    have : g ∈ (chunksOf n rules).flatten := by rw [chunksOf_join]; exact hm
    obtain ⟨c, hc, hgc⟩ := List.mem_flatten.mp this
    exact ⟨c, hc, g, hgc, h1, h2⟩
  obtain ⟨evs', g, hres, ⟨c, hcm, hgm⟩, h1, h2⟩ :=
    namespaceBlockEval_global_false (chunksOf n rules) [] hchunks
  have hgr : g ∈ rules := by
    rw [← chunksOf_join n rules]
    exact List.mem_flatten.mpr ⟨c, hcm, hgm⟩
  refine ⟨⟨evs', g, ?_, hgr, h1, h2⟩, ?_⟩
  · rw [namespaceEval, hres]
  · rw [namespaceMatching, namespaceEval, hres,
      matchedOfEvents_ends_noMatch]

/-- Witness for `global_false_suppresses_namespace`: a namespace whose
first rule matches, whose second (global) rule is false, and whose third
would match: no rule of the namespace matches. -/
theorem global_false_suppresses_namespace_witness :
    namespaceMatching 10
      [⟨0, false, true⟩, ⟨1, true, false⟩, ⟨2, false, true⟩] = ∅ :=
  (global_false_suppresses_namespace 10
    [⟨0, false, true⟩, ⟨1, true, false⟩, ⟨2, false, true⟩]
    ⟨⟨1, true, false⟩, by decide, rfl, rfl⟩).2

lemma rulesFuncEval_events (c : List RuleInfo) (evs : List RuleEvent) :
    ∀ e ∈ (rulesFuncEval c evs).1, e ∈ evs ∨ ∃ r ∈ c, eventId e = r.id := by
  induction c generalizing evs with
  | nil => intro e he; exact Or.inl he
  | cons r rest ih =>
    intro e he
    rw [rulesFuncEval] at he
    split at he
    · split at he
      · rcases List.mem_append.mp he with h | h
        · exact Or.inl h
        · rcases List.mem_singleton.mp h with rfl
          exact Or.inr ⟨r, List.mem_cons_self _ _, rfl⟩
      · rcases ih evs e he with h | ⟨x, hx, hex⟩
        · exact Or.inl h
        · exact Or.inr ⟨x, List.mem_cons_of_mem _ hx, hex⟩
    · rcases ih (evs ++ [.ruleMatch r.id]) e he with h | ⟨x, hx, hex⟩
      · rcases List.mem_append.mp h with h' | h'
        · exact Or.inl h'
        · rcases List.mem_singleton.mp h' with rfl
          exact Or.inr ⟨r, List.mem_cons_self _ _, rfl⟩
      · exact Or.inr ⟨x, List.mem_cons_of_mem _ hx, hex⟩

lemma namespaceBlockEval_events (chunks : List (List RuleInfo))
    (evs : List RuleEvent) :
    ∀ e ∈ namespaceBlockEval chunks evs,
      e ∈ evs ∨ ∃ c ∈ chunks, ∃ r ∈ c, eventId e = r.id := by
  induction chunks generalizing evs with
  | nil => intro e he; exact Or.inl he
  | cons c rest ih =>
    intro e he
    rw [namespaceBlockEval] at he
    have base : e ∈ (rulesFuncEval c evs).1 →
        e ∈ evs ∨ ∃ c' ∈ c :: rest, ∃ r ∈ c', eventId e = r.id := by
      intro h
      rcases rulesFuncEval_events c evs e h with h' | ⟨r, hr, her⟩
      · exact Or.inl h'
      · exact Or.inr ⟨c, List.mem_cons_self _ _, r, hr, her⟩
    split at he
    · exact base he
    · rcases ih (rulesFuncEval c evs).1 e he with h | ⟨c', hc', hr⟩
      · exact base h
      · exact Or.inr ⟨c', List.mem_cons_of_mem _ hc', hr⟩

lemma foldl_applyEvent_subset (evs : List RuleEvent) :
    ∀ s : Finset Nat,
      evs.foldl applyEvent s ⊆ s ∪ (evs.map eventId).toFinset := by
  induction evs with
  | nil => intro s; simp
  | cons e evs ih =>
    intro s
    rw [List.foldl_cons]
    refine (ih (applyEvent s e)).trans ?_
    intro x hx
    rcases Finset.mem_union.mp hx with hx | hx
    · cases e with
      | ruleMatch i =>
        rcases Finset.mem_insert.mp hx with rfl | hx
        · simp [eventId]
        · exact Finset.mem_union.mpr (Or.inl hx)
      | ruleNoMatch i => simp [applyEvent] at hx
    · simp only [List.map_cons, List.toFinset_cons, Finset.mem_union,
        Finset.mem_insert]
      tauto

lemma namespaceMatching_subset (n : Nat) (rules : List RuleInfo) :
    namespaceMatching n rules ⊆ nsIds rules := by
  rw [namespaceMatching, matchedOfEvents]
  refine (foldl_applyEvent_subset _ ∅).trans ?_
  intro x hx
  rcases Finset.mem_union.mp hx with hx | hx
  · simp at hx
  · rw [List.mem_toFinset, List.mem_map] at hx
    obtain ⟨e, he, hex⟩ := hx
    rcases namespaceBlockEval_events (chunksOf n rules) [] e he
      with h | ⟨c, hc, r, hr, her⟩
    · simp at h
    · rw [nsIds, List.mem_toFinset, List.mem_map]
      refine ⟨r, ?_, by rw [← hex, her]⟩
      rw [← chunksOf_join n rules]
      exact List.mem_flatten.mpr ⟨c, hc, hr⟩

lemma scanMatching_subset (n : Nat) (nss : List (List RuleInfo)) :
    scanMatching n nss ⊆ scanAllRules nss := by
  induction nss with
  | nil => simp [scanMatching, scanAllRules]
  | cons ns rest ih =>
    rw [scanMatching, scanAllRules, List.map_cons, List.map_cons,
      List.foldr_cons, List.foldr_cons]
    exact Finset.union_subset_union (namespaceMatching_subset n ns) ih

/-- **C7.** For any compiled rule set (rules grouped in namespaces) and any
scan outcome, the matching and non-matching rule sets are disjoint and
their union is exactly the set of all rules. -/
theorem scan_rules_partition (n : Nat) (nss : List (List RuleInfo)) :
    Disjoint (scanMatching n nss) (scanNonMatching n nss) ∧
    scanMatching n nss ∪ scanNonMatching n nss = scanAllRules nss :=
  ⟨Finset.disjoint_sdiff,
   Finset.union_sdiff_of_subset (scanMatching_subset n nss)⟩

/-- **C9.** After `yrx_compiler_build`, the `YRX_COMPILER` holds a compiler
in its empty initial state with exactly the configuration implied by the
creation flags re-applied: each of the six flag bits set at creation is set
again on the replacement compiler (includes are disabled exactly when
`YRX_DISABLE_INCLUDES` was passed), and nothing else — no sources,
namespaces, include directories, ignored or banned modules, features or
globals — is carried over; the stored `flags` are unchanged, so later
builds reset to the same configuration. -/
theorem yrx_compiler_build_resets (c : YRX_COMPILER) :
    (yrx_compiler_build c).flags = c.flags ∧
    (yrx_compiler_build c).inner = _yrx_compiler_create c.flags ∧
    ((yrx_compiler_build c).inner.relaxedRe = true ↔
      c.flags &&& YRX_RELAXED_RE_SYNTAX ≠ 0) ∧
    ((yrx_compiler_build c).inner.conditionOptimization = true ↔
      c.flags &&& YRX_ENABLE_CONDITION_OPTIMIZATION ≠ 0) ∧
    ((yrx_compiler_build c).inner.colorizeErrors = true ↔
      c.flags &&& YRX_COLORIZE_ERRORS ≠ 0) ∧
    ((yrx_compiler_build c).inner.errorOnSlowPattern = true ↔
      c.flags &&& YRX_ERROR_ON_SLOW_PATTERN ≠ 0) ∧
    ((yrx_compiler_build c).inner.errorOnSlowLoop = true ↔
      c.flags &&& YRX_ERROR_ON_SLOW_LOOP ≠ 0) ∧
    ((yrx_compiler_build c).inner.includesEnabled = false ↔
      c.flags &&& YRX_DISABLE_INCLUDES ≠ 0) ∧
    (yrx_compiler_build c).inner.sources = [] ∧
    (yrx_compiler_build c).inner.namespaces = [] ∧
    (yrx_compiler_build c).inner.includeDirs = [] ∧
    (yrx_compiler_build c).inner.ignoredModules = [] ∧
    (yrx_compiler_build c).inner.bannedModules = [] ∧
    (yrx_compiler_build c).inner.features = [] ∧
    (yrx_compiler_build c).inner.globals = [] := by
  unfold yrx_compiler_build _yrx_compiler_create Compiler.new
  by_cases h1 : c.flags &&& YRX_RELAXED_RE_SYNTAX ≠ 0 <;>
    by_cases h2 : c.flags &&& YRX_ENABLE_CONDITION_OPTIMIZATION ≠ 0 <;>
    by_cases h3 : c.flags &&& YRX_COLORIZE_ERRORS ≠ 0 <;>
    by_cases h4 : c.flags &&& YRX_ERROR_ON_SLOW_PATTERN ≠ 0 <;>
    by_cases h5 : c.flags &&& YRX_ERROR_ON_SLOW_LOOP ≠ 0 <;>
    by_cases h6 : c.flags &&& YRX_DISABLE_INCLUDES ≠ 0 <;>
    simp [h1, h2, h3, h4, h5, h6]
